import Mathlib

/-!
# Verification of the QuickSort module (`src/utils/QuickSort.js`)

Shallow embedding of the sorting module.  JavaScript arrays of numbers are
modelled as `Array Int`; the in-place mutation of the source is modelled by
explicit state passing (each function returns the updated array together with
whatever index the source returns).  Index arithmetic in the source is done
on JavaScript numbers that may go below `0` (e.g. `low - 1`) or above the
last position (e.g. `high + 1`), so indices are modelled as `Int`.

Array reads/writes in the source are unchecked; here a read outside the
array yields a junk value (`0`) and a write outside the array is dropped.
All theorems below carry the bounds hypotheses under which these branches
are unreachable, matching the source's implicit precondition.  For
`hoarePartition` the embedding is `Option`-valued: a read outside the
current sub-range `[low, high]` (in particular outside the array) yields
`none`, so a `some` result certifies that every access of the two scan
loops stays inside the sub-range.
-/

/-- Total read of `arr[k]` for an `Int` index: junk value `0` out of bounds
(the source would read `undefined`; all uses below are proved in-bounds). -/
def getE (arr : Array Int) (k : Int) : Int :=
  if h : 0 ≤ k ∧ k.toNat < arr.size then arr.get ⟨k.toNat, h.2⟩ else 0

/-- `swap(arr, i, j)` from the source: exchange `arr[i]` and `arr[j]`.
Out of bounds the embedding leaves the array unchanged (the source would
create sparse junk; all uses below are proved in-bounds). -/
def swap (arr : Array Int) (i j : Int) : Array Int :=
  if h : (0 ≤ i ∧ i.toNat < arr.size) ∧ (0 ≤ j ∧ j.toNat < arr.size) then
    arr.swap ⟨i.toNat, h.1.2⟩ ⟨j.toNat, h.2.2⟩
  else arr

/-- `Option`-valued read used by the `hoarePartition` embedding: `none`
outside the array. -/
def getO (arr : Array Int) (k : Int) : Option Int :=
  if h : 0 ≤ k ∧ k.toNat < arr.size then some (arr.get ⟨k.toNat, h.2⟩) else none

/-- Read used by the `hoarePartition` embedding, additionally guarded to the
current sub-range `[low, high]`: a `some` result of the whole partition
certifies that no scan ever leaves the sub-range. -/
def readIn (arr : Array Int) (low high k : Int) : Option Int :=
  if low ≤ k ∧ k ≤ high then getO arr k else none

/-- The list of values stored at indices `low, …, high` (clipped to the
array). -/
def rangeList (arr : Array Int) (low high : Int) : List Int :=
  (arr.toList.drop low.toNat).take (high + 1 - low).toNat

/-- `b` is obtained from `a` by rearranging values, touching only positions
inside `[low, high]`: same size, globally a permutation, and pointwise equal
outside `[low, high]`. -/
def SubPerm (a b : Array Int) (low high : Int) : Prop :=
  b.size = a.size ∧ b.toList.Perm a.toList ∧
    ∀ k : Int, 0 ≤ k → k < (a.size : Int) → (k < low ∨ high < k) → getE b k = getE a k

/-- The values at positions `low ≤ u ≤ v ≤ high` are in non-descending
order. -/
def SortedRange (arr : Array Int) (low high : Int) : Prop :=
  ∀ u v : Int, low ≤ u → u ≤ v → v ≤ high → 0 ≤ u → v < (arr.size : Int) →
    getE arr u ≤ getE arr v

/-- Whole-array non-descending order, as an adjacent-pairs condition. -/
def NonDescending (arr : Array Int) : Prop :=
  ∀ i : Nat, i + 1 < arr.size → getE arr (i : Int) ≤ getE arr ((i : Int) + 1)

theorem getE_eq_get (arr : Array Int) (k : Int) (h0 : 0 ≤ k)
    (h1 : k.toNat < arr.size) : getE arr k = arr.get ⟨k.toNat, h1⟩ := by
  have h : 0 ≤ k ∧ k.toNat < arr.size := ⟨h0, h1⟩
  simp only [getE, dif_pos h]

theorem getE_eq_getD (arr : Array Int) (k : Int) (h0 : 0 ≤ k) :
    getE arr k = arr.toList.getD k.toNat 0 := by
  by_cases h1 : k.toNat < arr.size
  · rw [getE_eq_get arr k h0 h1]
    have hl : k.toNat < arr.toList.length := by simpa using h1
    rw [List.getD_eq_getElem _ _ hl]
    simp only [Array.get_eq_getElem]
    exact Array.getElem_eq_getElem_toList h1
  · have : getE arr k = 0 := by
      unfold getE
      rw [dif_neg]
      intro hc
      exact h1 hc.2
    rw [this, List.getD_eq_getElem?_getD, List.getElem?_eq_none]
    · rfl
    · simpa using Nat.le_of_not_lt h1

theorem getE_of_toList_eq {a b : Array Int} (h : a.toList = b.toList) (k : Int) :
    getE a k = getE b k := by
  have hsz : a.size = b.size := by
    rw [← Array.length_toList, ← Array.length_toList, h]
  by_cases h0 : 0 ≤ k
  · rw [getE_eq_getD a k h0, getE_eq_getD b k h0, h]
  · unfold getE
    rw [dif_neg, dif_neg] <;> exact fun hc => h0 hc.1

theorem size_swap_eq (arr : Array Int) (i j : Int) : (swap arr i j).size = arr.size := by
  unfold swap
  split <;> simp

theorem getE_swap_left (arr : Array Int) {i j : Int}
    (hi0 : 0 ≤ i) (hi1 : i.toNat < arr.size) (hj0 : 0 ≤ j) (hj1 : j.toNat < arr.size) :
    getE (swap arr i j) i = getE arr j := by
  have h : (0 ≤ i ∧ i.toNat < arr.size) ∧ (0 ≤ j ∧ j.toNat < arr.size) :=
    ⟨⟨hi0, hi1⟩, ⟨hj0, hj1⟩⟩
  unfold swap
  rw [dif_pos h]
  rw [getE_eq_get _ _ hi0 (by simpa using hi1), getE_eq_get _ _ hj0 hj1]
  simp only [Array.get_eq_getElem]
  rw [Array.getElem_swap]
  simp

theorem getE_swap_right (arr : Array Int) {i j : Int}
    (hi0 : 0 ≤ i) (hi1 : i.toNat < arr.size) (hj0 : 0 ≤ j) (hj1 : j.toNat < arr.size) :
    getE (swap arr i j) j = getE arr i := by
  have h : (0 ≤ i ∧ i.toNat < arr.size) ∧ (0 ≤ j ∧ j.toNat < arr.size) :=
    ⟨⟨hi0, hi1⟩, ⟨hj0, hj1⟩⟩
  unfold swap
  rw [dif_pos h]
  rw [getE_eq_get _ _ hj0 (by simpa using hj1), getE_eq_get _ _ hi0 hi1]
  simp only [Array.get_eq_getElem]
  rw [Array.getElem_swap]
  by_cases hij : j.toNat = i.toNat
  · simp [hij]
  · simp [hij]

theorem getE_swap_ne (arr : Array Int) {i j : Int} (k : Int)
    (hki : k ≠ i) (hkj : k ≠ j) : getE (swap arr i j) k = getE arr k := by
  unfold swap
  split
  · rename_i h
    by_cases hk : 0 ≤ k ∧ k.toNat < arr.size
    · rw [getE_eq_get _ _ hk.1 (by simpa using hk.2), getE_eq_get _ _ hk.1 hk.2]
      simp only [Array.get_eq_getElem]
      rw [Array.getElem_swap]
      have hne1 : ¬(k.toNat = i.toNat) := by omega
      have hne2 : ¬(k.toNat = j.toNat) := by omega
      simp [hne1, hne2]
    · unfold getE
      rw [dif_neg, dif_neg hk]
      intro hc
      exact hk ⟨hc.1, by simpa using hc.2⟩
  · rfl

theorem cons_set_perm : ∀ (t : List Int) (j : Nat), j < t.length → ∀ a : Int,
    (t.getD j 0 :: t.set j a).Perm (a :: t) := by
  intro t
  induction t with
  | nil => intro j hj; simp at hj
  | cons b s ih =>
    intro j hj a
    cases j with
    | zero => simpa using List.Perm.swap a b s
    | succ j' =>
      have hj' : j' < s.length := by simpa using hj
      have step1 : (s.getD j' 0 :: b :: s.set j' a).Perm (b :: s.getD j' 0 :: s.set j' a) :=
        List.Perm.swap _ _ _
      have step2 : (b :: s.getD j' 0 :: s.set j' a).Perm (b :: a :: s) :=
        List.Perm.cons b (ih j' hj' a)
      have step3 : (b :: a :: s).Perm (a :: b :: s) := List.Perm.swap _ _ _
      simpa using (step1.trans step2).trans step3

theorem set_set_perm : ∀ (l : List Int) (i j : Nat), i < l.length → j < l.length →
    ((l.set i (l.getD j 0)).set j (l.getD i 0)).Perm l := by
  intro l
  induction l with
  | nil => intro i j hi; simp at hi
  | cons a t ih =>
    intro i j hi hj
    cases i with
    | zero =>
      cases j with
      | zero => simp
      | succ j' =>
        have hj' : j' < t.length := by simpa using hj
        simpa using cons_set_perm t j' hj' a
    | succ i' =>
      have hi' : i' < t.length := by simpa using hi
      cases j with
      | zero =>
        simpa using cons_set_perm t i' hi' a
      | succ j' =>
        have hj' : j' < t.length := by simpa using hj
        simpa using List.Perm.cons a (ih i' j' hi' hj')

theorem swap_toList_perm (arr : Array Int) {i j : Int}
    (hi0 : 0 ≤ i) (hi1 : i.toNat < arr.size) (hj0 : 0 ≤ j) (hj1 : j.toNat < arr.size) :
    (swap arr i j).toList.Perm arr.toList := by
  have h : (0 ≤ i ∧ i.toNat < arr.size) ∧ (0 ≤ j ∧ j.toNat < arr.size) :=
    ⟨⟨hi0, hi1⟩, ⟨hj0, hj1⟩⟩
  unfold swap
  rw [dif_pos h, Array.toList_swap]
  have hgi : arr.get ⟨i.toNat, h.1.2⟩ = arr.toList.getD i.toNat 0 := by
    rw [← getE_eq_get arr i hi0 h.1.2, getE_eq_getD arr i hi0]
  have hgj : arr.get ⟨j.toNat, h.2.2⟩ = arr.toList.getD j.toNat 0 := by
    rw [← getE_eq_get arr j hj0 h.2.2, getE_eq_getD arr j hj0]
  rw [hgi, hgj]
  exact set_set_perm arr.toList i.toNat j.toNat (by simpa using hi1) (by simpa using hj1)

theorem SubPerm.refl (a : Array Int) (low high : Int) : SubPerm a a low high :=
  ⟨rfl, List.Perm.refl _, fun _ _ _ _ => rfl⟩

theorem SubPerm.size_eq {a b : Array Int} {low high : Int} (h : SubPerm a b low high) :
    b.size = a.size := h.1

theorem SubPerm.perm {a b : Array Int} {low high : Int} (h : SubPerm a b low high) :
    b.toList.Perm a.toList := h.2.1

theorem SubPerm.frame {a b : Array Int} {low high : Int} (h : SubPerm a b low high) :
    ∀ k : Int, 0 ≤ k → k < (a.size : Int) → (k < low ∨ high < k) → getE b k = getE a k := h.2.2

theorem SubPerm.mono {a b : Array Int} {low high low' high' : Int}
    (h : SubPerm a b low' high') (hl : low ≤ low') (hh : high' ≤ high) :
    SubPerm a b low high :=
  ⟨h.1, h.2.1, fun k h0 h1 hout => h.2.2 k h0 h1 (by omega)⟩

theorem SubPerm.trans {a b c : Array Int} {low high : Int}
    (h1 : SubPerm a b low high) (h2 : SubPerm b c low high) : SubPerm a c low high := by
  refine ⟨h2.1.trans h1.1, h2.2.1.trans h1.2.1, fun k k0 k1 kout => ?_⟩
  have hb := h1.2.2 k k0 k1 kout
  have hc := h2.2.2 k k0 (by rw [h1.1]; exact k1) kout
  exact hc.trans hb

theorem swap_subPerm (arr : Array Int) {low high i j : Int}
    (hli : low ≤ i) (hih : i ≤ high) (hlj : low ≤ j) (hjh : j ≤ high) :
    SubPerm arr (swap arr i j) low high := by
  by_cases h : (0 ≤ i ∧ i.toNat < arr.size) ∧ (0 ≤ j ∧ j.toNat < arr.size)
  · refine ⟨size_swap_eq arr i j, swap_toList_perm arr h.1.1 h.1.2 h.2.1 h.2.2, ?_⟩
    intro k _ _ kout
    exact getE_swap_ne arr k (by omega) (by omega)
  · unfold swap
    rw [dif_neg h]
    exact SubPerm.refl arr low high

theorem rangeList_length (arr : Array Int) {low high : Int} (h0 : 0 ≤ low)
    (h2 : high < (arr.size : Int)) :
    (rangeList arr low high).length = (high + 1 - low).toNat := by
  unfold rangeList
  simp only [List.length_take, List.length_drop, Array.length_toList]
  omega

theorem rangeList_getD (arr : Array Int) {low high : Int} (h0 : 0 ≤ low) (t : Nat)
    (ht : t < (high + 1 - low).toNat) (h2 : low + t < (arr.size : Int)) :
    (rangeList arr low high).getD t 0 = getE arr (low + t) := by
  have hlen : t < (rangeList arr low high).length := by
    unfold rangeList
    simp only [List.length_take, List.length_drop, Array.length_toList]
    omega
  have hl2 : low.toNat + t < arr.toList.length := by
    simp only [Array.length_toList]
    omega
  rw [List.getD_eq_getElem _ _ hlen]
  unfold rangeList
  rw [List.getElem_take, List.getElem_drop]
  rw [getE_eq_getD arr _ (by omega)]
  have harg : (low + (t : Int)).toNat = low.toNat + t := by omega
  rw [harg, List.getD_eq_getElem _ _ hl2]

theorem mem_rangeList {arr : Array Int} {low high : Int} (h0 : 0 ≤ low) {x : Int}
    (hx : x ∈ rangeList arr low high) :
    ∃ k : Int, low ≤ k ∧ k ≤ high ∧ k < (arr.size : Int) ∧ getE arr k = x := by
  rcases List.mem_iff_getElem.mp hx with ⟨t, ht, hval⟩
  have hlen : t < (high + 1 - low).toNat ∧ low.toNat + t < arr.size := by
    unfold rangeList at ht
    simp only [List.length_take, List.length_drop, Array.length_toList] at ht
    omega
  refine ⟨low + t, by omega, by omega, by omega, ?_⟩
  have hgd : (rangeList arr low high).getD t 0 = getE arr (low + t) :=
    rangeList_getD arr h0 t hlen.1 (by omega)
  rw [List.getD_eq_getElem _ _ ht, hval] at hgd
  exact hgd.symm

theorem getE_mem_rangeList (arr : Array Int) {low high k : Int} (h0 : 0 ≤ low)
    (hk1 : low ≤ k) (hk2 : k ≤ high) (hk3 : k < (arr.size : Int)) :
    getE arr k ∈ rangeList arr low high := by
  have hlen : (k - low).toNat < (rangeList arr low high).length := by
    unfold rangeList
    simp only [List.length_take, List.length_drop, Array.length_toList]
    omega
  have hgd : (rangeList arr low high).getD (k - low).toNat 0
      = getE arr (low + ((k - low).toNat : Int)) :=
    rangeList_getD arr h0 (k - low).toNat (by omega) (by omega)
  rw [List.getD_eq_getElem _ _ hlen] at hgd
  have harg : low + ((k - low).toNat : Int) = k := by omega
  rw [harg] at hgd
  rw [← hgd]
  exact List.getElem_mem hlen

theorem rangeList_decomp (arr : Array Int) {low high : Int} (h0 : 0 ≤ low)
    (h1 : low ≤ high + 1) (h2 : high < (arr.size : Int)) :
    arr.toList =
      arr.toList.take low.toNat ++ rangeList arr low high ++ arr.toList.drop (high + 1).toNat := by
  unfold rangeList
  have hdd : (arr.toList.drop low.toNat).drop (high + 1 - low).toNat
      = arr.toList.drop (high + 1).toNat := by
    rw [List.drop_drop]
    congr 1
    omega
  rw [List.append_assoc, ← hdd, List.take_append_drop, List.take_append_drop]

theorem getE_toList_getElem (arr : Array Int) (n : Nat) (h : n < arr.toList.length) :
    arr.toList.getD n 0 = getE arr (n : Int) := by
  rw [getE_eq_getD arr _ (Int.natCast_nonneg n)]
  simp

theorem frame_take_eq {a b : Array Int} {low high : Int}
    (hsz : b.size = a.size)
    (hfr : ∀ k : Int, 0 ≤ k → k < (a.size : Int) → (k < low ∨ high < k) → getE b k = getE a k)
    (h0 : 0 ≤ low) :
    b.toList.take low.toNat = a.toList.take low.toNat := by
  apply List.ext_getElem
  · simp [hsz]
  · intro n h₁ h₂
    have hb : n < b.toList.length := by
      simp only [List.length_take] at h₁
      omega
    have ha : n < a.toList.length := by
      simp only [Array.length_toList] at hb ⊢
      omega
    have hnm : n < low.toNat := by
      simp only [List.length_take] at h₁
      omega
    rw [List.getElem_take, List.getElem_take]
    rw [← List.getD_eq_getElem _ 0 hb, ← List.getD_eq_getElem _ 0 ha]
    rw [getE_toList_getElem b n hb, getE_toList_getElem a n ha]
    apply hfr
    · exact Int.natCast_nonneg n
    · simp only [Array.length_toList] at ha
      omega
    · left
      omega

theorem frame_drop_eq {a b : Array Int} {low high : Int}
    (hsz : b.size = a.size)
    (hfr : ∀ k : Int, 0 ≤ k → k < (a.size : Int) → (k < low ∨ high < k) → getE b k = getE a k)
    (hh : 0 ≤ high + 1) :
    b.toList.drop (high + 1).toNat = a.toList.drop (high + 1).toNat := by
  apply List.ext_getElem
  · simp [hsz]
  · intro n h₁ h₂
    have hb : (high + 1).toNat + n < b.toList.length := by
      simp only [List.length_drop] at h₁
      omega
    have ha : (high + 1).toNat + n < a.toList.length := by
      simp only [Array.length_toList] at hb ⊢
      omega
    rw [List.getElem_drop, List.getElem_drop]
    rw [← List.getD_eq_getElem _ 0 hb, ← List.getD_eq_getElem _ 0 ha]
    rw [getE_toList_getElem b _ hb, getE_toList_getElem a _ ha]
    apply hfr
    · exact Int.natCast_nonneg _
    · simp only [Array.length_toList] at ha
      omega
    · right
      omega

theorem SubPerm_rangeList {a b : Array Int} {low high : Int}
    (h : SubPerm a b low high) (h0 : 0 ≤ low) (h2 : high < (a.size : Int)) :
    (rangeList b low high).Perm (rangeList a low high) := by
  by_cases h1 : low ≤ high + 1
  · have hb2 : high < (b.size : Int) := by rw [h.size_eq]; exact h2
    have hda := rangeList_decomp a h0 h1 h2
    have hdb := rangeList_decomp b h0 h1 hb2
    have htake := frame_take_eq h.size_eq h.frame h0
    have hdrop := frame_drop_eq h.size_eq h.frame (by omega)
    have hperm : (↑b.toList : Multiset Int) = ↑a.toList := Multiset.coe_eq_coe.mpr h.perm
    rw [hda, hdb, htake, hdrop] at hperm
    rw [← Multiset.coe_add, ← Multiset.coe_add, ← Multiset.coe_add, ← Multiset.coe_add]
      at hperm
    have hmid : (↑(rangeList b low high) : Multiset Int) = ↑(rangeList a low high) :=
      add_left_cancel (add_right_cancel hperm)
    exact Multiset.coe_eq_coe.mp hmid
  · have hz : (high + 1 - low).toNat = 0 := by omega
    unfold rangeList
    rw [hz]
    simp

theorem SubPerm_pred {a b : Array Int} {low high : Int} (P : Int → Prop)
    (h : SubPerm a b low high) (h0 : 0 ≤ low) (h2 : high < (a.size : Int))
    (hall : ∀ k : Int, low ≤ k → k ≤ high → P (getE a k)) :
    ∀ k : Int, low ≤ k → k ≤ high → P (getE b k) := by
  intro k hk1 hk2
  have hks : k < (b.size : Int) := by
    rw [h.size_eq]
    omega
  have hmem : getE b k ∈ rangeList b low high := getE_mem_rangeList b h0 hk1 hk2 hks
  have hmem' : getE b k ∈ rangeList a low high :=
    (SubPerm_rangeList h h0 h2).mem_iff.mp hmem
  rcases mem_rangeList h0 hmem' with ⟨k', hk1', hk2', _, hval⟩
  rw [← hval]
  exact hall k' hk1' hk2'

theorem sortedRange_rangeList {arr : Array Int} {low high : Int}
    (h0 : 0 ≤ low) (h2 : high < (arr.size : Int)) (hs : SortedRange arr low high) :
    (rangeList arr low high).Sorted (fun x y => x ≤ y) := by
  apply List.pairwise_iff_getElem.mpr
  intro t t' ht ht' htt
  have hlen := rangeList_length arr h0 h2
  have e1 : (rangeList arr low high).getD t 0 = getE arr (low + t) :=
    rangeList_getD arr h0 t (by omega) (by omega)
  have e2 : (rangeList arr low high).getD t' 0 = getE arr (low + t') :=
    rangeList_getD arr h0 t' (by omega) (by omega)
  rw [List.getD_eq_getElem _ _ ht] at e1
  rw [List.getD_eq_getElem _ _ ht'] at e2
  rw [e1, e2]
  exact hs (low + t) (low + t') (by omega) (by omega) (by omega) (by omega) (by omega)

theorem rangeList_eq_pointwise {b c : Array Int} {low high : Int}
    (h0 : 0 ≤ low) (hb : high < (b.size : Int)) (hsz : c.size = b.size)
    (heq : rangeList b low high = rangeList c low high) :
    ∀ k : Int, low ≤ k → k ≤ high → getE b k = getE c k := by
  intro k h1 h2
  have e1 : (rangeList b low high).getD (k - low).toNat 0
      = getE b (low + ((k - low).toNat : Int)) :=
    rangeList_getD b h0 _ (by omega) (by omega)
  have e2 : (rangeList c low high).getD (k - low).toNat 0
      = getE c (low + ((k - low).toNat : Int)) :=
    rangeList_getD c h0 _ (by omega) (by omega)
  have harg : low + (((k - low).toNat : Nat) : Int) = k := by omega
  rw [harg] at e1 e2
  rw [← e1, ← e2, heq]

theorem rangeList_full (arr : Array Int) : rangeList arr 0 ((arr.size : Int) - 1) = arr.toList := by
  unfold rangeList
  have h1 : (0 : Int).toNat = 0 := rfl
  have h2 : ((arr.size : Int) - 1 + 1 - 0).toNat = arr.toList.length := by
    simp only [Array.length_toList]
    omega
  rw [h1, h2, List.drop_zero, List.take_length]

theorem sorted_perm_unique {a b : Array Int}
    (hab : a.toList.Perm b.toList)
    (ha : SortedRange a 0 ((a.size : Int) - 1)) (hb : SortedRange b 0 ((b.size : Int) - 1)) :
    a.toList = b.toList := by
  have hsa : a.toList.Sorted (fun x y => x ≤ y) := by
    rw [← rangeList_full a]
    exact sortedRange_rangeList (by omega) (by omega) ha
  have hsb : b.toList.Sorted (fun x y => x ≤ y) := by
    rw [← rangeList_full b]
    exact sortedRange_rangeList (by omega) (by omega) hb
  exact List.eq_of_perm_of_sorted hab hsa hsb

/-- The inner `for (let j = low; j < high; j++)` loop of the Lomuto
`partition`.  The loop runs exactly `high - j` more times, so the trip count
is passed as the (exact) structural fuel. -/
def lomutoGo (arr : Array Int) (pivot i j : Int) : Nat → Array Int × Int
  | 0 => (arr, i)
  | n + 1 =>
    if getE arr j ≤ pivot then lomutoGo (swap arr (i + 1) j) pivot (i + 1) (j + 1) n
    else lomutoGo arr pivot i (j + 1) n

/-- `partition(arr, low, high)` (Lomuto scheme): pivot is `arr[high]`;
returns the updated array and the pivot index `i + 1`. -/
def partition (arr : Array Int) (low high : Int) : Array Int × Int :=
  let pivot := getE arr high
  let r := lomutoGo arr pivot (low - 1) low (high - low).toNat
  (swap r.1 (r.2 + 1) high, r.2 + 1)

theorem lomutoGo_snd_bounds : ∀ (n : Nat) (arr : Array Int) (pivot i j : Int),
    i ≤ (lomutoGo arr pivot i j n).2 ∧ (lomutoGo arr pivot i j n).2 ≤ i + n := by
  intro n
  induction n with
  | zero =>
    intro arr pivot i j
    simp [lomutoGo]
  | succ n ih =>
    intro arr pivot i j
    simp only [lomutoGo]
    by_cases h : getE arr j ≤ pivot
    · rw [if_pos h]
      have := ih (swap arr (i + 1) j) pivot (i + 1) (j + 1)
      omega
    · rw [if_neg h]
      have := ih arr pivot i (j + 1)
      omega

theorem partition_snd_bounds (arr : Array Int) (low high : Int) (h : low ≤ high) :
    low ≤ (partition arr low high).2 ∧ (partition arr low high).2 ≤ high := by
  unfold partition
  have := lomutoGo_snd_bounds (high - low).toNat arr (getE arr high) (low - 1) low
  simp only []
  omega

/-- `quickSort(arr, low, high)`: recursive Lomuto quicksort. -/
def quickSort (arr : Array Int) (low high : Int) : Array Int :=
  if h : low < high then
    let pr := partition arr low high
    let left := quickSort pr.1 low (pr.2 - 1)
    quickSort left (pr.2 + 1) high
  else arr
termination_by (high + 1 - low).toNat
decreasing_by
  · have := partition_snd_bounds arr low high (le_of_lt h)
    omega
  · have := partition_snd_bounds arr low high (le_of_lt h)
    omega

/-- `randomizedQuickSort(arr, low, high)`.  The stream of `Math.random()`
draws is modelled by an oracle `ρ : Nat → Nat` together with a counter `k`
(threaded through the call tree in evaluation order and returned):
`Math.floor(Math.random() * (high - low + 1)) + low` becomes
`low + ρ k % (high - low + 1)`, which ranges over exactly the in-range
indices, so quantifying over `ρ` and `k` covers every choice of random
pivot indices. -/
def randomizedQuickSort (ρ : Nat → Nat) (arr : Array Int) (low high : Int) (k : Nat) :
    Array Int × Nat :=
  if h : low < high then
    let randomIndex : Int := low + ((ρ k % (high - low + 1).toNat : Nat) : Int)
    let arr1 := swap arr randomIndex high
    let pr := partition arr1 low high
    let left := randomizedQuickSort ρ pr.1 low (pr.2 - 1) (k + 1)
    randomizedQuickSort ρ left.1 (pr.2 + 1) high left.2
  else (arr, k)
termination_by (high + 1 - low).toNat
decreasing_by
  · have := partition_snd_bounds
      (swap arr (low + ((ρ k % (high - low + 1).toNat : Nat) : Int)) high) low high
      (le_of_lt h)
    omega
  · have := partition_snd_bounds
      (swap arr (low + ((ρ k % (high - low + 1).toNat : Nat) : Int)) high) low high
      (le_of_lt h)
    omega

/-- `medianOfThree(arr, low, high)`: three pairwise compare-and-swap steps
on positions `low`, `mid`, `high`; returns the updated array and `mid`.
`Math.floor((low + high) / 2)` is `Int` division here; all uses have
`0 ≤ low ≤ high`, where the two agree. -/
def medianOfThree (arr : Array Int) (low high : Int) : Array Int × Int :=
  let mid := (low + high) / 2
  let a1 := if getE arr mid < getE arr low then swap arr low mid else arr
  let a2 := if getE a1 high < getE a1 low then swap a1 low high else a1
  let a3 := if getE a2 high < getE a2 mid then swap a2 mid high else a2
  (a3, mid)

/-- `medianOfThreeQuickSort(arr, low, high)`. -/
def medianOfThreeQuickSort (arr : Array Int) (low high : Int) : Array Int :=
  if h : low < high then
    let mr := medianOfThree arr low high
    let arr1 := swap mr.1 mr.2 high
    let pr := partition arr1 low high
    let left := medianOfThreeQuickSort pr.1 low (pr.2 - 1)
    medianOfThreeQuickSort left (pr.2 + 1) high
  else arr
termination_by (high + 1 - low).toNat
decreasing_by
  · have := partition_snd_bounds
      (swap (medianOfThree arr low high).1 (medianOfThree arr low high).2 high) low high
      (le_of_lt h)
    omega
  · have := partition_snd_bounds
      (swap (medianOfThree arr low high).1 (medianOfThree arr low high).2 high) low high
      (le_of_lt h)
    omega

/-- Weight of a stack of ranges, used as the termination measure of the
iterative loop: splitting a range strictly decreases it. -/
def stackWeight : List (Int × Int) → Nat
  | [] => 0
  | r :: rest => (2 * (r.2 + 1 - r.1).toNat + 1) + stackWeight rest

/-- The `while (stack.length > 0)` loop of `iterativeQuickSort`.  The source
keeps a flat stack of indices pushed in pairs (`low` then `high`, so a pop
yields `high` then `low`); the stack is modelled as a list of such pairs
with the head as top of stack. -/
def iterLoop (arr : Array Int) (stack : List (Int × Int)) : Array Int :=
  match stack with
  | [] => arr
  | (low, high) :: rest =>
    if h : low < high then
      let pr := partition arr low high
      iterLoop pr.1 ((pr.2 + 1, high) :: (low, pr.2 - 1) :: rest)
    else iterLoop arr rest
termination_by stackWeight stack
decreasing_by
  · have := partition_snd_bounds arr low high (le_of_lt h)
    simp only [stackWeight]
    omega
  · simp only [stackWeight]
    omega

/-- `iterativeQuickSort(arr)`: the initial stack holds the single range
`(0, arr.length - 1)`. -/
def iterativeQuickSort (arr : Array Int) : Array Int :=
  iterLoop arr [(0, (arr.size : Int) - 1)]

/-- The `while (i <= gt)` loop of `threeWayPartition`.  Every iteration
decreases `gt + 1 - i` by exactly one, so the loop runs exactly
`(gt + 1 - i).toNat` more times; that exact trip count is the structural
fuel. -/
def threeWayGo (arr : Array Int) (pivot lt i gt : Int) : Nat → Array Int × Int × Int
  | 0 => (arr, lt, gt)
  | n + 1 =>
    if getE arr i < pivot then threeWayGo (swap arr lt i) pivot (lt + 1) (i + 1) gt n
    else if pivot < getE arr i then threeWayGo (swap arr i gt) pivot lt i (gt - 1) n
    else threeWayGo arr pivot lt (i + 1) gt n

/-- `threeWayPartition(arr, low, high)` (Dutch national flag): pivot is
`arr[low]`; returns the updated array and the pair `[lt, gt]`. -/
def threeWayPartition (arr : Array Int) (low high : Int) : Array Int × Int × Int :=
  let pivot := getE arr low
  threeWayGo arr pivot low (low + 1) high (high - low).toNat

theorem threeWayGo_bounds : ∀ (n : Nat) (arr : Array Int) (pivot lt i gt : Int),
    lt < i → i ≤ gt + 1 → n = (gt + 1 - i).toNat →
    lt ≤ (threeWayGo arr pivot lt i gt n).2.1 ∧
      (threeWayGo arr pivot lt i gt n).2.1 ≤ (threeWayGo arr pivot lt i gt n).2.2 ∧
      (threeWayGo arr pivot lt i gt n).2.2 ≤ gt := by
  intro n
  induction n with
  | zero =>
    intro arr pivot lt i gt h1 h2 h3
    simp only [threeWayGo]
    omega
  | succ n ih =>
    intro arr pivot lt i gt h1 h2 h3
    simp only [threeWayGo]
    by_cases hlt : getE arr i < pivot
    · rw [if_pos hlt]
      have := ih (swap arr lt i) pivot (lt + 1) (i + 1) gt (by omega) (by omega) (by omega)
      omega
    · rw [if_neg hlt]
      by_cases hgt : pivot < getE arr i
      · rw [if_pos hgt]
        have := ih (swap arr i gt) pivot lt i (gt - 1) (by omega) (by omega) (by omega)
        omega
      · rw [if_neg hgt]
        have := ih arr pivot lt (i + 1) gt (by omega) (by omega) (by omega)
        omega

theorem threeWayPartition_snd_bounds (arr : Array Int) (low high : Int) (h : low < high) :
    low ≤ (threeWayPartition arr low high).2.1 ∧
      (threeWayPartition arr low high).2.1 ≤ (threeWayPartition arr low high).2.2 ∧
      (threeWayPartition arr low high).2.2 ≤ high := by
  have := threeWayGo_bounds (high - low).toNat arr (getE arr low) low (low + 1) high
    (by omega) (by omega) (by omega)
  simpa [threeWayPartition] using this

/-- `threeWayQuickSort(arr, low, high)`. -/
def threeWayQuickSort (arr : Array Int) (low high : Int) : Array Int :=
  if h : low < high then
    let pr := threeWayPartition arr low high
    let left := threeWayQuickSort pr.1 low (pr.2.1 - 1)
    threeWayQuickSort left (pr.2.2 + 1) high
  else arr
termination_by (high + 1 - low).toNat
decreasing_by
  · have := threeWayPartition_snd_bounds arr low high h
    omega
  · have := threeWayPartition_snd_bounds arr low high h
    omega

/-- The `do { i++ } while (arr[i] < pivot)` scan of `hoarePartition`:
returns the first index above `i` whose value is not `< pivot`.  Reads are
guarded to `[low, high]` by `readIn`; the fuel passed by `hoareLoop` is
large enough that exhaustion is impossible under the precondition (proved
below), so a `some` result reflects exactly the source behaviour. -/
def hoareScanI (arr : Array Int) (low high pivot i : Int) : Nat → Option Int
  | 0 => none
  | n + 1 =>
    match readIn arr low high (i + 1) with
    | none => none
    | some v => if v < pivot then hoareScanI arr low high pivot (i + 1) n else some (i + 1)

/-- The `do { j-- } while (arr[j] > pivot)` scan of `hoarePartition`. -/
def hoareScanJ (arr : Array Int) (low high pivot j : Int) : Nat → Option Int
  | 0 => none
  | n + 1 =>
    match readIn arr low high (j - 1) with
    | none => none
    | some v => if pivot < v then hoareScanJ arr low high pivot (j - 1) n else some (j - 1)

/-- The `while (true)` loop of `hoarePartition`: scan from both ends, stop
when the pointers cross, otherwise swap and continue. -/
def hoareLoop (arr : Array Int) (low high pivot i j : Int) : Nat → Option (Array Int × Int)
  | 0 => none
  | n + 1 =>
    match hoareScanI arr low high pivot i (arr.size + 1),
          hoareScanJ arr low high pivot j (arr.size + 1) with
    | some i', some j' =>
      if i' ≥ j' then some (arr, j')
      else hoareLoop (swap arr i' j') low high pivot i' j' n
    | _, _ => none

/-- `hoarePartition(arr, low, high)`: pivot is `arr[low]`; pointers start at
`low - 1` and `high + 1`. -/
def hoarePartition (arr : Array Int) (low high : Int) : Option (Array Int × Int) :=
  match readIn arr low high low with
  | none => none
  | some pivot => hoareLoop arr low high pivot (low - 1) (high + 1) (arr.size + 2)

/-- `quickSort(arr)` with the default bounds `low = 0`,
`high = arr.length - 1`. -/
def quickSortTop (arr : Array Int) : Array Int :=
  quickSort arr 0 ((arr.size : Int) - 1)

/-- `randomizedQuickSort(arr)` with default bounds, for the oracle `ρ` and
starting counter `k`. -/
def randomizedQuickSortTop (ρ : Nat → Nat) (k : Nat) (arr : Array Int) : Array Int :=
  (randomizedQuickSort ρ arr 0 ((arr.size : Int) - 1) k).1

/-- `medianOfThreeQuickSort(arr)` with default bounds. -/
def medianOfThreeQuickSortTop (arr : Array Int) : Array Int :=
  medianOfThreeQuickSort arr 0 ((arr.size : Int) - 1)

/-- `threeWayQuickSort(arr)` with default bounds. -/
def threeWayQuickSortTop (arr : Array Int) : Array Int :=
  threeWayQuickSort arr 0 ((arr.size : Int) - 1)

theorem lomutoGo_spec : ∀ (n : Nat) (arr : Array Int) (pivot i j low high : Int),
    0 ≤ low → high < (arr.size : Int) →
    low - 1 ≤ i → i < j → low ≤ j → j + (n : Int) = high →
    (∀ k, low ≤ k → k ≤ i → getE arr k ≤ pivot) →
    (∀ k, i < k → k < j → pivot < getE arr k) →
    ∃ a' i', lomutoGo arr pivot i j n = (a', i') ∧
      SubPerm arr a' low (high - 1) ∧
      i ≤ i' ∧ i' < high ∧
      (∀ k, low ≤ k → k ≤ i' → getE a' k ≤ pivot) ∧
      (∀ k, i' < k → k < high → pivot < getE a' k) := by
  intro n
  induction n with
  | zero =>
    intro arr pivot i j low high hlow hhigh hi hij hlj hjn hL hG
    refine ⟨arr, i, rfl, SubPerm.refl arr low (high - 1), le_refl i, by omega, hL, ?_⟩
    intro k hk1 hk2
    exact hG k hk1 (by omega)
  | succ n ih =>
    intro arr pivot i j low high hlow hhigh hi hij hlj hjn hL hG
    have hjh : j < high := by omega
    simp only [lomutoGo]
    by_cases hcase : getE arr j ≤ pivot
    · rw [if_pos hcase]
      have hswap : SubPerm arr (swap arr (i + 1) j) low (high - 1) :=
        swap_subPerm arr (by omega) (by omega) (by omega) (by omega)
      have hsz : (swap arr (i + 1) j).size = arr.size := size_swap_eq arr (i + 1) j
      have hbi : (0 ≤ i + 1 ∧ (i + 1).toNat < arr.size) := by omega
      have hbj : (0 ≤ j ∧ j.toNat < arr.size) := by omega
      have hL2 : ∀ k, low ≤ k → k ≤ i + 1 → getE (swap arr (i + 1) j) k ≤ pivot := by
        intro k hk1 hk2
        by_cases hki : k = i + 1
        · rw [hki, getE_swap_left arr hbi.1 hbi.2 hbj.1 hbj.2]
          exact hcase
        · rw [getE_swap_ne arr k (by omega) (by omega)]
          exact hL k hk1 (by omega)
      have hG2 : ∀ k, i + 1 < k → k < j + 1 → pivot < getE (swap arr (i + 1) j) k := by
        intro k hk1 hk2
        by_cases hkj : k = j
        · rw [hkj, getE_swap_right arr hbi.1 hbi.2 hbj.1 hbj.2]
          exact hG (i + 1) (by omega) (by omega)
        · rw [getE_swap_ne arr k (by omega) (by omega)]
          exact hG k (by omega) (by omega)
      obtain ⟨a', i', heq, hsub, hii, hih, hLf, hGf⟩ :=
        ih (swap arr (i + 1) j) pivot (i + 1) (j + 1) low high hlow (by omega)
          (by omega) (by omega) (by omega) (by omega) hL2 hG2
      exact ⟨a', i', heq, hswap.trans hsub, by omega, hih, hLf, hGf⟩
    · rw [if_neg hcase]
      have hG2 : ∀ k, i < k → k < j + 1 → pivot < getE arr k := by
        intro k hk1 hk2
        by_cases hkj : k = j
        · rw [hkj]
          omega
        · exact hG k hk1 (by omega)
      obtain ⟨a', i', heq, hsub, hii, hih, hLf, hGf⟩ :=
        ih arr pivot i (j + 1) low high hlow hhigh hi (by omega) (by omega) (by omega) hL hG2
      exact ⟨a', i', heq, hsub, hii, hih, hLf, hGf⟩

theorem partition_spec (arr : Array Int) (low high : Int)
    (h0 : 0 ≤ low) (h1 : low ≤ high) (h2 : high < (arr.size : Int)) :
    ∃ a' p, partition arr low high = (a', p) ∧
      low ≤ p ∧ p ≤ high ∧
      a'.size = arr.size ∧
      SubPerm arr a' low high ∧
      getE a' p = getE arr high ∧
      (∀ k, low ≤ k → k < p → getE a' k ≤ getE a' p) ∧
      (∀ k, p < k → k ≤ high → getE a' p < getE a' k) := by
  obtain ⟨a1, i1, heq, hsub, hii, hih, hL, hG⟩ :=
    lomutoGo_spec (high - low).toNat arr (getE arr high) (low - 1) low low high h0 h2
      (by omega) (by omega) (by omega) (by omega)
      (fun k hk1 hk2 => absurd (hk1.trans hk2) (by omega))
      (fun k hk1 hk2 => absurd (lt_of_le_of_lt (le_of_lt hk1) hk2) (by omega))
  have hps : partition arr low high = (swap a1 (i1 + 1) high, i1 + 1) := by
    simp only [partition]
    rw [heq]
  have hp1 : low ≤ i1 + 1 := by omega
  have hp2 : i1 + 1 ≤ high := by omega
  have ha1sz : a1.size = arr.size := hsub.size_eq
  have hbp : 0 ≤ i1 + 1 ∧ (i1 + 1).toNat < a1.size := by omega
  have hbh : 0 ≤ high ∧ high.toNat < a1.size := by omega
  have hpivA1 : getE a1 high = getE arr high :=
    hsub.frame high (by omega) (by omega) (by omega)
  have hswap2 : SubPerm a1 (swap a1 (i1 + 1) high) low high :=
    swap_subPerm a1 hp1 hp2 h1 (le_refl high)
  have hvalp : getE (swap a1 (i1 + 1) high) (i1 + 1) = getE arr high := by
    rw [getE_swap_left a1 hbp.1 hbp.2 hbh.1 hbh.2]
    exact hpivA1
  refine ⟨swap a1 (i1 + 1) high, i1 + 1, hps, hp1, hp2, ?_, ?_, hvalp, ?_, ?_⟩
  · rw [size_swap_eq, ha1sz]
  · exact (hsub.mono (le_refl low) (by omega)).trans hswap2
  · intro k hk1 hk2
    rw [hvalp]
    rw [getE_swap_ne a1 k (by omega) (by omega)]
    exact hL k hk1 (by omega)
  · intro k hk1 hk2
    rw [hvalp]
    by_cases hkh : k = high
    · rw [hkh, getE_swap_right a1 hbp.1 hbp.2 hbh.1 hbh.2]
      exact hG (i1 + 1) (by omega) (by omega)
    · rw [getE_swap_ne a1 k (by omega) (by omega)]
      exact hG k (by omega) (by omega)

theorem sort_glue {a0 a1 a2 a3 : Array Int} {low high p : Int}
    (hlow : 0 ≤ low) (hhigh : high < (a0.size : Int))
    (hp1 : low ≤ p) (hp2 : p ≤ high)
    (s1 : SubPerm a0 a1 low high)
    (hL : ∀ k, low ≤ k → k < p → getE a1 k ≤ getE a1 p)
    (hR : ∀ k, p < k → k ≤ high → getE a1 p ≤ getE a1 k)
    (s2 : SubPerm a1 a2 low (p - 1)) (so2 : SortedRange a2 low (p - 1))
    (s3 : SubPerm a2 a3 (p + 1) high) (so3 : SortedRange a3 (p + 1) high) :
    SubPerm a0 a3 low high ∧ SortedRange a3 low high := by
  have hsz1 : a1.size = a0.size := s1.size_eq
  have hsz2 : a2.size = a1.size := s2.size_eq
  have hsz3 : a3.size = a2.size := s3.size_eq
  have hsub : SubPerm a0 a3 low high :=
    s1.trans ((s2.mono (le_refl low) (by omega)).trans (s3.mono (by omega) (le_refl high)))
  have hp3 : getE a2 p = getE a1 p :=
    s2.frame p (by omega) (by omega) (by omega)
  have hp4 : getE a3 p = getE a2 p :=
    s3.frame p (by omega) (by omega) (by omega)
  have hL2 : ∀ k, low ≤ k → k ≤ p - 1 → getE a2 k ≤ getE a1 p :=
    SubPerm_pred (fun x => x ≤ getE a1 p) s2 hlow (by omega)
      (fun k hk1 hk2 => hL k hk1 (by omega))
  have hL3 : ∀ k, low ≤ k → k ≤ p - 1 → getE a3 k ≤ getE a1 p := by
    intro k hk1 hk2
    rw [s3.frame k (by omega) (by omega) (by omega)]
    exact hL2 k hk1 hk2
  have hR2 : ∀ k, p + 1 ≤ k → k ≤ high → getE a1 p ≤ getE a2 k := by
    intro k hk1 hk2
    rw [s2.frame k (by omega) (by omega) (by omega)]
    exact hR k (by omega) hk2
  have hR3 : ∀ k, p + 1 ≤ k → k ≤ high → getE a1 p ≤ getE a3 k :=
    SubPerm_pred (fun x => getE a1 p ≤ x) s3 (by omega) (by omega) hR2
  refine ⟨hsub, ?_⟩
  intro u v hu huv hv hu0 hvs
  have hvs2 : v < (a2.size : Int) := by omega
  by_cases hvp : v ≤ p - 1
  · have e1 : getE a3 u = getE a2 u := s3.frame u hu0 (by omega) (by omega)
    have e2 : getE a3 v = getE a2 v := s3.frame v (by omega) (by omega) (by omega)
    rw [e1, e2]
    exact so2 u v hu huv (by omega) hu0 hvs2
  · by_cases hup : u ≤ p - 1
    · have e1 : getE a3 u ≤ getE a1 p := hL3 u hu hup
      by_cases hvp2 : v = p
      · rw [hvp2, hp4, hp3]
        exact e1
      · exact e1.trans (hR3 v (by omega) hv)
    · by_cases hup2 : u = p
      · by_cases hvp2 : v = p
        · rw [hup2, hvp2]
        · rw [hup2, hp4, hp3]
          exact hR3 v (by omega) hv
      · exact so3 u v (by omega) huv hv hu0 (by omega)

theorem quickSort_eq (arr : Array Int) (low high : Int) :
    quickSort arr low high =
      if low < high then
        quickSort (quickSort (partition arr low high).1 low ((partition arr low high).2 - 1))
          ((partition arr low high).2 + 1) high
      else arr := by
  rw [quickSort]
  by_cases h : low < high
  · simp [h]
  · simp [h]

theorem quickSort_spec : ∀ (fuel : Nat) (arr : Array Int) (low high : Int),
    (high + 1 - low).toNat ≤ fuel → 0 ≤ low → high < (arr.size : Int) →
    SubPerm arr (quickSort arr low high) low high ∧
      SortedRange (quickSort arr low high) low high := by
  intro fuel
  induction fuel with
  | zero =>
    intro arr low high hf h0 h2
    have hnl : ¬low < high := by omega
    rw [quickSort_eq, if_neg hnl]
    refine ⟨SubPerm.refl _ _ _, ?_⟩
    intro u v hu huv hv hu0 hvs
    have huv2 : u = v := by omega
    rw [huv2]
  | succ fuel ih =>
    intro arr low high hf h0 h2
    by_cases h : low < high
    · obtain ⟨a1, p, hpeq, hp1, hp2, hsz1, hsub1, _, hL, hR⟩ :=
        partition_spec arr low high h0 (le_of_lt h) h2
      have hpe1 : (partition arr low high).1 = a1 := by rw [hpeq]
      have hpe2 : (partition arr low high).2 = p := by rw [hpeq]
      rw [quickSort_eq, if_pos h, hpe1, hpe2]
      obtain ⟨hsubL, hsoL⟩ := ih a1 low (p - 1) (by omega) h0 (by omega)
      obtain ⟨hsubR, hsoR⟩ :=
        ih (quickSort a1 low (p - 1)) (p + 1) high (by omega) (by omega)
          (by rw [hsubL.size_eq]; omega)
      exact sort_glue h0 h2 hp1 hp2 hsub1 hL
        (fun k hk1 hk2 => le_of_lt (hR k hk1 hk2)) hsubL hsoL hsubR hsoR
    · rw [quickSort_eq, if_neg h]
      refine ⟨SubPerm.refl _ _ _, ?_⟩
      intro u v hu huv hv hu0 hvs
      have huv2 : u = v := by omega
      rw [huv2]

theorem randomizedQuickSort_eq (ρ : Nat → Nat) (arr : Array Int) (low high : Int) (k : Nat) :
    randomizedQuickSort ρ arr low high k =
      if low < high then
        randomizedQuickSort ρ
          (randomizedQuickSort ρ
            (partition (swap arr (low + ((ρ k % (high - low + 1).toNat : Nat) : Int)) high)
              low high).1
            low
            ((partition (swap arr (low + ((ρ k % (high - low + 1).toNat : Nat) : Int)) high)
              low high).2 - 1) (k + 1)).1
          ((partition (swap arr (low + ((ρ k % (high - low + 1).toNat : Nat) : Int)) high)
              low high).2 + 1) high
          (randomizedQuickSort ρ
            (partition (swap arr (low + ((ρ k % (high - low + 1).toNat : Nat) : Int)) high)
              low high).1
            low
            ((partition (swap arr (low + ((ρ k % (high - low + 1).toNat : Nat) : Int)) high)
              low high).2 - 1) (k + 1)).2
      else (arr, k) := by
  rw [randomizedQuickSort]
  by_cases h : low < high
  · simp [h]
  · simp [h]

theorem randomizedQuickSort_spec : ∀ (fuel : Nat) (ρ : Nat → Nat) (arr : Array Int)
    (low high : Int) (k : Nat),
    (high + 1 - low).toNat ≤ fuel → 0 ≤ low → high < (arr.size : Int) →
    SubPerm arr (randomizedQuickSort ρ arr low high k).1 low high ∧
      SortedRange (randomizedQuickSort ρ arr low high k).1 low high := by
  intro fuel
  induction fuel with
  | zero =>
    intro ρ arr low high k hf h0 h2
    have hnl : ¬low < high := by omega
    rw [randomizedQuickSort_eq, if_neg hnl]
    refine ⟨SubPerm.refl _ _ _, ?_⟩
    intro u v hu huv hv hu0 hvs
    have huv2 : u = v := by omega
    rw [huv2]
  | succ fuel ih =>
    intro ρ arr low high k hf h0 h2
    by_cases h : low < high
    · have hmod : ρ k % (high - low + 1).toNat < (high - low + 1).toNat :=
        Nat.mod_lt _ (by omega)
      have hsw : SubPerm arr
          (swap arr (low + ((ρ k % (high - low + 1).toNat : Nat) : Int)) high) low high :=
        swap_subPerm arr (by omega) (by omega) (by omega) (le_refl high)
      obtain ⟨a1, p, hpeq, hp1, hp2, hsz1, hsub1, _, hL, hR⟩ :=
        partition_spec (swap arr (low + ((ρ k % (high - low + 1).toNat : Nat) : Int)) high)
          low high h0 (le_of_lt h) (by rw [size_swap_eq]; omega)
      have hpe1 : (partition (swap arr (low + ((ρ k % (high - low + 1).toNat : Nat) : Int))
          high) low high).1 = a1 := by rw [hpeq]
      have hpe2 : (partition (swap arr (low + ((ρ k % (high - low + 1).toNat : Nat) : Int))
          high) low high).2 = p := by rw [hpeq]
      rw [randomizedQuickSort_eq, if_pos h, hpe1, hpe2]
      have hs1 : SubPerm arr a1 low high := hsw.trans hsub1
      have ha1sz : a1.size = arr.size := hs1.size_eq
      obtain ⟨hsubL, hsoL⟩ := ih ρ a1 low (p - 1) (k + 1) (by omega) h0 (by omega)
      obtain ⟨hsubR, hsoR⟩ :=
        ih ρ (randomizedQuickSort ρ a1 low (p - 1) (k + 1)).1 (p + 1) high
          (randomizedQuickSort ρ a1 low (p - 1) (k + 1)).2 (by omega) (by omega)
          (by rw [hsubL.size_eq]; omega)
      exact sort_glue h0 h2 hp1 hp2 hs1 hL
        (fun u hk1 hk2 => le_of_lt (hR u hk1 hk2)) hsubL hsoL hsubR hsoR
    · rw [randomizedQuickSort_eq, if_neg h]
      refine ⟨SubPerm.refl _ _ _, ?_⟩
      intro u v hu huv hv hu0 hvs
      have huv2 : u = v := by omega
      rw [huv2]

theorem ifSwap_subPerm (c : Prop) [Decidable c] (x : Array Int) {low high u v : Int}
    (hu1 : low ≤ u) (hu2 : u ≤ high) (hv1 : low ≤ v) (hv2 : v ≤ high) :
    SubPerm x (if c then swap x u v else x) low high := by
  split
  · exact swap_subPerm x hu1 hu2 hv1 hv2
  · exact SubPerm.refl x low high

theorem medianOfThree_snd (arr : Array Int) (low high : Int) :
    (medianOfThree arr low high).2 = (low + high) / 2 := by
  simp [medianOfThree]

theorem medianOfThree_subPerm (arr : Array Int) {low high : Int}
    (h0 : 0 ≤ low) (h1 : low ≤ high) :
    SubPerm arr (medianOfThree arr low high).1 low high := by
  have hmid1 : low ≤ (low + high) / 2 := by omega
  have hmid2 : (low + high) / 2 ≤ high := by omega
  simp only [medianOfThree]
  generalize hA1 : (if getE arr ((low + high) / 2) < getE arr low
      then swap arr low ((low + high) / 2) else arr) = A1
  have t1 : SubPerm arr A1 low high := by
    rw [← hA1]
    exact ifSwap_subPerm _ arr (le_refl low) h1 hmid1 hmid2
  generalize hA2 : (if getE A1 high < getE A1 low then swap A1 low high else A1) = A2
  have t2 : SubPerm A1 A2 low high := by
    rw [← hA2]
    exact ifSwap_subPerm _ A1 (le_refl low) h1 h1 (le_refl high)
  have t3 : SubPerm A2 (if getE A2 high < getE A2 ((low + high) / 2)
      then swap A2 ((low + high) / 2) high else A2) low high :=
    ifSwap_subPerm _ A2 hmid1 hmid2 h1 (le_refl high)
  exact t1.trans (t2.trans t3)

theorem medianOfThreeQuickSort_eq (arr : Array Int) (low high : Int) :
    medianOfThreeQuickSort arr low high =
      if low < high then
        medianOfThreeQuickSort
          (medianOfThreeQuickSort
            (partition (swap (medianOfThree arr low high).1 (medianOfThree arr low high).2
              high) low high).1
            low
            ((partition (swap (medianOfThree arr low high).1 (medianOfThree arr low high).2
              high) low high).2 - 1))
          ((partition (swap (medianOfThree arr low high).1 (medianOfThree arr low high).2
              high) low high).2 + 1) high
      else arr := by
  rw [medianOfThreeQuickSort]
  by_cases h : low < high
  · simp [h]
  · simp [h]

theorem medianOfThreeQuickSort_spec : ∀ (fuel : Nat) (arr : Array Int) (low high : Int),
    (high + 1 - low).toNat ≤ fuel → 0 ≤ low → high < (arr.size : Int) →
    SubPerm arr (medianOfThreeQuickSort arr low high) low high ∧
      SortedRange (medianOfThreeQuickSort arr low high) low high := by
  intro fuel
  induction fuel with
  | zero =>
    intro arr low high hf h0 h2
    have hnl : ¬low < high := by omega
    rw [medianOfThreeQuickSort_eq, if_neg hnl]
    refine ⟨SubPerm.refl _ _ _, ?_⟩
    intro u v hu huv hv hu0 hvs
    have huv2 : u = v := by omega
    rw [huv2]
  | succ fuel ih =>
    intro arr low high hf h0 h2
    by_cases h : low < high
    · have hm3 : SubPerm arr (medianOfThree arr low high).1 low high :=
        medianOfThree_subPerm arr h0 (le_of_lt h)
      have hmb : low ≤ (medianOfThree arr low high).2 ∧
          (medianOfThree arr low high).2 ≤ high := by
        rw [medianOfThree_snd]
        omega
      have hsw : SubPerm (medianOfThree arr low high).1
          (swap (medianOfThree arr low high).1 (medianOfThree arr low high).2 high)
          low high :=
        swap_subPerm _ hmb.1 hmb.2 (le_of_lt h) (le_refl high)
      have hpre : SubPerm arr
          (swap (medianOfThree arr low high).1 (medianOfThree arr low high).2 high)
          low high := hm3.trans hsw
      obtain ⟨a1, p, hpeq, hp1, hp2, hsz1, hsub1, _, hL, hR⟩ :=
        partition_spec (swap (medianOfThree arr low high).1 (medianOfThree arr low high).2
          high) low high h0 (le_of_lt h) (by rw [hpre.size_eq]; exact h2)
      have hpe1 : (partition (swap (medianOfThree arr low high).1
          (medianOfThree arr low high).2 high) low high).1 = a1 := by rw [hpeq]
      have hpe2 : (partition (swap (medianOfThree arr low high).1
          (medianOfThree arr low high).2 high) low high).2 = p := by rw [hpeq]
      rw [medianOfThreeQuickSort_eq, if_pos h, hpe1, hpe2]
      have hs1 : SubPerm arr a1 low high := hpre.trans hsub1
      have ha1sz : a1.size = arr.size := hs1.size_eq
      obtain ⟨hsubL, hsoL⟩ := ih a1 low (p - 1) (by omega) h0 (by omega)
      obtain ⟨hsubR, hsoR⟩ :=
        ih (medianOfThreeQuickSort a1 low (p - 1)) (p + 1) high (by omega) (by omega)
          (by rw [hsubL.size_eq]; omega)
      exact sort_glue h0 h2 hp1 hp2 hs1 hL
        (fun u hk1 hk2 => le_of_lt (hR u hk1 hk2)) hsubL hsoL hsubR hsoR
    · rw [medianOfThreeQuickSort_eq, if_neg h]
      refine ⟨SubPerm.refl _ _ _, ?_⟩
      intro u v hu huv hv hu0 hvs
      have huv2 : u = v := by omega
      rw [huv2]

theorem threeWayGo_spec : ∀ (n : Nat) (arr : Array Int) (pivot lt i gt low high : Int),
    0 ≤ low → high < (arr.size : Int) →
    low ≤ lt → lt < i → i ≤ gt + 1 → gt ≤ high → (n : Int) = gt + 1 - i →
    (∀ k, low ≤ k → k < lt → getE arr k < pivot) →
    (∀ k, lt ≤ k → k < i → getE arr k = pivot) →
    (∀ k, gt < k → k ≤ high → pivot < getE arr k) →
    ∃ a' ltf gtf, threeWayGo arr pivot lt i gt n = (a', ltf, gtf) ∧
      SubPerm arr a' low high ∧
      lt ≤ ltf ∧ ltf ≤ gtf ∧ gtf ≤ gt ∧
      (∀ k, low ≤ k → k < ltf → getE a' k < pivot) ∧
      (∀ k, ltf ≤ k → k ≤ gtf → getE a' k = pivot) ∧
      (∀ k, gtf < k → k ≤ high → pivot < getE a' k) := by
  intro n
  induction n with
  | zero =>
    intro arr pivot lt i gt low high hlow hhigh hllt hlti higt hgth hn hA hB hC
    have hie : i = gt + 1 := by omega
    refine ⟨arr, lt, gt, rfl, SubPerm.refl arr low high, le_refl lt, by omega, le_refl gt,
      hA, ?_, hC⟩
    intro k hk1 hk2
    exact hB k hk1 (by omega)
  | succ n ih =>
    intro arr pivot lt i gt low high hlow hhigh hllt hlti higt hgth hn hA hB hC
    have higt2 : i ≤ gt := by omega
    have hbl : 0 ≤ lt ∧ lt.toNat < arr.size := by omega
    have hbi : 0 ≤ i ∧ i.toNat < arr.size := by omega
    have hbg : 0 ≤ gt ∧ gt.toNat < arr.size := by omega
    simp only [threeWayGo]
    by_cases hlt : getE arr i < pivot
    · rw [if_pos hlt]
      have hswap : SubPerm arr (swap arr lt i) low high :=
        swap_subPerm arr hllt (by omega) (by omega) (by omega)
      have hsz : (swap arr lt i).size = arr.size := size_swap_eq arr lt i
      have hA2 : ∀ k, low ≤ k → k < lt + 1 → getE (swap arr lt i) k < pivot := by
        intro k hk1 hk2
        by_cases hkl : k = lt
        · rw [hkl, getE_swap_left arr hbl.1 hbl.2 hbi.1 hbi.2]
          exact hlt
        · rw [getE_swap_ne arr k (by omega) (by omega)]
          exact hA k hk1 (by omega)
      have hB2 : ∀ k, lt + 1 ≤ k → k < i + 1 → getE (swap arr lt i) k = pivot := by
        intro k hk1 hk2
        by_cases hki : k = i
        · rw [hki, getE_swap_right arr hbl.1 hbl.2 hbi.1 hbi.2]
          exact hB lt (le_refl lt) hlti
        · rw [getE_swap_ne arr k (by omega) (by omega)]
          exact hB k (by omega) (by omega)
      have hC2 : ∀ k, gt < k → k ≤ high → pivot < getE (swap arr lt i) k := by
        intro k hk1 hk2
        rw [getE_swap_ne arr k (by omega) (by omega)]
        exact hC k hk1 hk2
      obtain ⟨a', ltf, gtf, heq, hsub, hb1, hb2, hb3, hAf, hBf, hCf⟩ :=
        ih (swap arr lt i) pivot (lt + 1) (i + 1) gt low high hlow (by omega)
          (by omega) (by omega) (by omega) hgth (by omega) hA2 hB2 hC2
      exact ⟨a', ltf, gtf, heq, hswap.trans hsub, by omega, hb2, hb3, hAf, hBf, hCf⟩
    · rw [if_neg hlt]
      by_cases hgt : pivot < getE arr i
      · rw [if_pos hgt]
        have hswap : SubPerm arr (swap arr i gt) low high :=
          swap_subPerm arr (by omega) (by omega) (by omega) (by omega)
        have hsz : (swap arr i gt).size = arr.size := size_swap_eq arr i gt
        have hA2 : ∀ k, low ≤ k → k < lt → getE (swap arr i gt) k < pivot := by
          intro k hk1 hk2
          rw [getE_swap_ne arr k (by omega) (by omega)]
          exact hA k hk1 hk2
        have hB2 : ∀ k, lt ≤ k → k < i → getE (swap arr i gt) k = pivot := by
          intro k hk1 hk2
          rw [getE_swap_ne arr k (by omega) (by omega)]
          exact hB k hk1 hk2
        have hC2 : ∀ k, gt - 1 < k → k ≤ high → pivot < getE (swap arr i gt) k := by
          intro k hk1 hk2
          by_cases hkg : k = gt
          · rw [hkg, getE_swap_right arr hbi.1 hbi.2 hbg.1 hbg.2]
            exact hgt
          · rw [getE_swap_ne arr k (by omega) (by omega)]
            exact hC k (by omega) hk2
        obtain ⟨a', ltf, gtf, heq, hsub, hb1, hb2, hb3, hAf, hBf, hCf⟩ :=
          ih (swap arr i gt) pivot lt i (gt - 1) low high hlow (by omega)
            hllt hlti (by omega) (by omega) (by omega) hA2 hB2 hC2
        exact ⟨a', ltf, gtf, heq, hswap.trans hsub, hb1, hb2, by omega, hAf, hBf, hCf⟩
      · rw [if_neg hgt]
        have hieq : getE arr i = pivot := by omega
        have hB2 : ∀ k, lt ≤ k → k < i + 1 → getE arr k = pivot := by
          intro k hk1 hk2
          by_cases hki : k = i
          · rw [hki]
            exact hieq
          · exact hB k hk1 (by omega)
        obtain ⟨a', ltf, gtf, heq, hsub, hb1, hb2, hb3, hAf, hBf, hCf⟩ :=
          ih arr pivot lt (i + 1) gt low high hlow hhigh hllt (by omega) (by omega)
            hgth (by omega) hA hB2 hC
        exact ⟨a', ltf, gtf, heq, hsub, hb1, hb2, hb3, hAf, hBf, hCf⟩

theorem threeWayPartition_spec (arr : Array Int) (low high : Int)
    (h0 : 0 ≤ low) (h1 : low ≤ high) (h2 : high < (arr.size : Int)) :
    ∃ a' lt gt, threeWayPartition arr low high = (a', lt, gt) ∧
      SubPerm arr a' low high ∧
      low ≤ lt ∧ lt ≤ gt ∧ gt ≤ high ∧
      (∀ k, low ≤ k → k < lt → getE a' k < getE arr low) ∧
      (∀ k, lt ≤ k → k ≤ gt → getE a' k = getE arr low) ∧
      (∀ k, gt < k → k ≤ high → getE arr low < getE a' k) := by
  obtain ⟨a', ltf, gtf, heq, hsub, hb1, hb2, hb3, hAf, hBf, hCf⟩ :=
    threeWayGo_spec (high - low).toNat arr (getE arr low) low (low + 1) high low high
      h0 h2 (le_refl low) (by omega) (by omega) (le_refl high) (by omega)
      (fun k hk1 hk2 => absurd (lt_of_le_of_lt hk1 hk2) (lt_irrefl low))
      (fun k hk1 hk2 => by
        have hkl : k = low := by omega
        rw [hkl])
      (fun k hk1 hk2 => absurd (lt_of_lt_of_le hk1 hk2) (lt_irrefl high))
  have hres : threeWayPartition arr low high = (a', ltf, gtf) := by
    simp only [threeWayPartition]
    exact heq
  exact ⟨a', ltf, gtf, hres, hsub, by omega, hb2, hb3, hAf, hBf, hCf⟩

theorem sort_glue3 {a0 a1 a2 a3 : Array Int} {low high lt gt pv : Int}
    (hlow : 0 ≤ low) (hhigh : high < (a0.size : Int))
    (hlt1 : low ≤ lt) (hltgt : lt ≤ gt) (hgt2 : gt ≤ high)
    (s1 : SubPerm a0 a1 low high)
    (hL : ∀ k, low ≤ k → k < lt → getE a1 k < pv)
    (hM : ∀ k, lt ≤ k → k ≤ gt → getE a1 k = pv)
    (hR : ∀ k, gt < k → k ≤ high → pv < getE a1 k)
    (s2 : SubPerm a1 a2 low (lt - 1)) (so2 : SortedRange a2 low (lt - 1))
    (s3 : SubPerm a2 a3 (gt + 1) high) (so3 : SortedRange a3 (gt + 1) high) :
    SubPerm a0 a3 low high ∧ SortedRange a3 low high := by
  have hsz1 : a1.size = a0.size := s1.size_eq
  have hsz2 : a2.size = a1.size := s2.size_eq
  have hsz3 : a3.size = a2.size := s3.size_eq
  have hsub : SubPerm a0 a3 low high :=
    s1.trans ((s2.mono (le_refl low) (by omega)).trans (s3.mono (by omega) (le_refl high)))
  have hL2 : ∀ k, low ≤ k → k ≤ lt - 1 → getE a2 k < pv :=
    SubPerm_pred (fun x => x < pv) s2 hlow (by omega)
      (fun k hk1 hk2 => hL k hk1 (by omega))
  have hL3 : ∀ k, low ≤ k → k ≤ lt - 1 → getE a3 k < pv := by
    intro k hk1 hk2
    rw [s3.frame k (by omega) (by omega) (by omega)]
    exact hL2 k hk1 hk2
  have hM3 : ∀ k, lt ≤ k → k ≤ gt → getE a3 k = pv := by
    intro k hk1 hk2
    rw [s3.frame k (by omega) (by omega) (by omega),
      s2.frame k (by omega) (by omega) (by omega)]
    exact hM k hk1 hk2
  have hR2 : ∀ k, gt + 1 ≤ k → k ≤ high → pv < getE a2 k := by
    intro k hk1 hk2
    rw [s2.frame k (by omega) (by omega) (by omega)]
    exact hR k (by omega) hk2
  have hR3 : ∀ k, gt + 1 ≤ k → k ≤ high → pv < getE a3 k :=
    SubPerm_pred (fun x => pv < x) s3 (by omega) (by omega) hR2
  refine ⟨hsub, ?_⟩
  intro u v hu huv hv hu0 hvs
  have hvs2 : v < (a2.size : Int) := by omega
  by_cases hvl : v ≤ lt - 1
  · have e1 : getE a3 u = getE a2 u := s3.frame u hu0 (by omega) (by omega)
    have e2 : getE a3 v = getE a2 v := s3.frame v (by omega) (by omega) (by omega)
    rw [e1, e2]
    exact so2 u v hu huv (by omega) hu0 hvs2
  · by_cases hul : u ≤ lt - 1
    · have e1 : getE a3 u < pv := hL3 u hu hul
      by_cases hvg : v ≤ gt
      · rw [hM3 v (by omega) hvg]
        exact le_of_lt e1
      · exact le_of_lt (e1.trans (hR3 v (by omega) hv))
    · by_cases hug : u ≤ gt
      · by_cases hvg : v ≤ gt
        · rw [hM3 u (by omega) hug, hM3 v (by omega) hvg]
        · rw [hM3 u (by omega) hug]
          exact le_of_lt (hR3 v (by omega) hv)
      · exact so3 u v (by omega) huv hv hu0 (by omega)

theorem threeWayQuickSort_eq (arr : Array Int) (low high : Int) :
    threeWayQuickSort arr low high =
      if low < high then
        threeWayQuickSort
          (threeWayQuickSort (threeWayPartition arr low high).1 low
            ((threeWayPartition arr low high).2.1 - 1))
          ((threeWayPartition arr low high).2.2 + 1) high
      else arr := by
  rw [threeWayQuickSort]
  by_cases h : low < high
  · simp [h]
  · simp [h]

theorem threeWayQuickSort_spec : ∀ (fuel : Nat) (arr : Array Int) (low high : Int),
    (high + 1 - low).toNat ≤ fuel → 0 ≤ low → high < (arr.size : Int) →
    SubPerm arr (threeWayQuickSort arr low high) low high ∧
      SortedRange (threeWayQuickSort arr low high) low high := by
  intro fuel
  induction fuel with
  | zero =>
    intro arr low high hf h0 h2
    have hnl : ¬low < high := by omega
    rw [threeWayQuickSort_eq, if_neg hnl]
    refine ⟨SubPerm.refl _ _ _, ?_⟩
    intro u v hu huv hv hu0 hvs
    have huv2 : u = v := by omega
    rw [huv2]
  | succ fuel ih =>
    intro arr low high hf h0 h2
    by_cases h : low < high
    · obtain ⟨a1, lt, gt, hpeq, hsub1, hlt1, hltgt, hgt2, hL, hM, hR⟩ :=
        threeWayPartition_spec arr low high h0 (le_of_lt h) h2
      have hpe1 : (threeWayPartition arr low high).1 = a1 := by rw [hpeq]
      have hpe2 : (threeWayPartition arr low high).2.1 = lt := by rw [hpeq]
      have hpe3 : (threeWayPartition arr low high).2.2 = gt := by rw [hpeq]
      rw [threeWayQuickSort_eq, if_pos h, hpe1, hpe2, hpe3]
      have ha1sz : a1.size = arr.size := hsub1.size_eq
      obtain ⟨hsubL, hsoL⟩ := ih a1 low (lt - 1) (by omega) h0 (by omega)
      obtain ⟨hsubR, hsoR⟩ :=
        ih (threeWayQuickSort a1 low (lt - 1)) (gt + 1) high (by omega) (by omega)
          (by rw [hsubL.size_eq]; omega)
      exact sort_glue3 h0 h2 hlt1 hltgt hgt2 hsub1 hL hM hR hsubL hsoL hsubR hsoR
    · rw [threeWayQuickSort_eq, if_neg h]
      refine ⟨SubPerm.refl _ _ _, ?_⟩
      intro u v hu huv hv hu0 hvs
      have huv2 : u = v := by omega
      rw [huv2]

theorem rangeList_congr {b c : Array Int} {low high : Int}
    (h0 : 0 ≤ low) (hb : high < (b.size : Int)) (hsz : c.size = b.size)
    (heq : ∀ k : Int, low ≤ k → k ≤ high → getE b k = getE c k) :
    rangeList b low high = rangeList c low high := by
  apply List.ext_getElem
  · rw [rangeList_length b h0 hb, rangeList_length c h0 (by omega)]
  · intro t h₁ h₂
    have hlb := rangeList_length b h0 hb
    have e1 : (rangeList b low high).getD t 0 = getE b (low + t) :=
      rangeList_getD b h0 t (by omega) (by omega)
    have e2 : (rangeList c low high).getD t 0 = getE c (low + t) :=
      rangeList_getD c h0 t (by omega) (by omega)
    rw [List.getD_eq_getElem _ _ h₁] at e1
    rw [List.getD_eq_getElem _ _ h₂] at e2
    rw [e1, e2]
    exact heq (low + t) (by omega) (by omega)

theorem array_ext_getE {b c : Array Int} (hsz : c.size = b.size)
    (h : ∀ k : Int, 0 ≤ k → k < (b.size : Int) → getE b k = getE c k) : b = c := by
  apply Array.ext _ _ (by omega)
  intro n hn1 hn2
  have hg := h (n : Int) (Int.natCast_nonneg n) (by omega)
  rw [getE_eq_get b _ (Int.natCast_nonneg n) (by simpa using hn1),
    getE_eq_get c _ (Int.natCast_nonneg n) (by simpa using hn2)] at hg
  simpa [Array.get_eq_getElem] using hg

theorem quickSort_comm (a : Array Int) (u1 v1 u2 v2 : Int)
    (hb1 : u1 < v1 → 0 ≤ u1 ∧ v1 < (a.size : Int))
    (hb2 : u2 < v2 → 0 ≤ u2 ∧ v2 < (a.size : Int))
    (hdisj : ∀ k : Int, u1 ≤ k → k ≤ v1 → u2 ≤ k → k ≤ v2 → False) :
    quickSort (quickSort a u1 v1) u2 v2 = quickSort (quickSort a u2 v2) u1 v1 := by
  by_cases t1 : u1 < v1
  · by_cases t2 : u2 < v2
    · obtain ⟨hu1, hv1⟩ := hb1 t1
      obtain ⟨hu2, hv2s⟩ := hb2 t2
      obtain ⟨sd1, so1⟩ := quickSort_spec (v1 + 1 - u1).toNat a u1 v1 (le_refl _) hu1 hv1
      obtain ⟨sd2, so2⟩ := quickSort_spec (v2 + 1 - u2).toNat a u2 v2 (le_refl _) hu2 hv2s
      obtain ⟨sb, sob⟩ := quickSort_spec (v2 + 1 - u2).toNat (quickSort a u1 v1) u2 v2
        (le_refl _) hu2 (by rw [sd1.size_eq]; exact hv2s)
      obtain ⟨sc, soc⟩ := quickSort_spec (v1 + 1 - u1).toNat (quickSort a u2 v2) u1 v1
        (le_refl _) hu1 (by rw [sd2.size_eq]; exact hv1)
      have szd1 : (quickSort a u1 v1).size = a.size := sd1.size_eq
      have szd2 : (quickSort a u2 v2).size = a.size := sd2.size_eq
      have szb : (quickSort (quickSort a u1 v1) u2 v2).size = a.size := by
        rw [sb.size_eq, szd1]
      have szc : (quickSort (quickSort a u2 v2) u1 v1).size = a.size := by
        rw [sc.size_eq, szd2]
      -- pointwise agreement on the first range
      have hr1 : ∀ k : Int, u1 ≤ k → k ≤ v1 →
          getE (quickSort a u1 v1) k = getE (quickSort (quickSort a u2 v2) u1 v1) k := by
        have p1 : (rangeList (quickSort a u1 v1) u1 v1).Perm (rangeList a u1 v1) :=
          SubPerm_rangeList sd1 hu1 hv1
        have pc : (rangeList (quickSort (quickSort a u2 v2) u1 v1) u1 v1).Perm
            (rangeList (quickSort a u2 v2) u1 v1) :=
          SubPerm_rangeList sc hu1 (by omega)
        have rd2 : rangeList (quickSort a u2 v2) u1 v1 = rangeList a u1 v1 :=
          rangeList_congr hu1 (by omega) (by omega)
            (fun k hk1 hk2 => sd2.frame k (by omega) (by omega)
              (by
                by_contra hcon
                push_neg at hcon
                exact hdisj k hk1 hk2 (by omega) (by omega)))
        rw [rd2] at pc
        have sl1 : (rangeList (quickSort a u1 v1) u1 v1).Sorted (fun x y => x ≤ y) :=
          sortedRange_rangeList hu1 (by omega) so1
        have slc : (rangeList (quickSort (quickSort a u2 v2) u1 v1) u1 v1).Sorted
            (fun x y => x ≤ y) :=
          sortedRange_rangeList hu1 (by omega) soc
        have hreq : rangeList (quickSort a u1 v1) u1 v1
            = rangeList (quickSort (quickSort a u2 v2) u1 v1) u1 v1 :=
          List.eq_of_perm_of_sorted (p1.trans pc.symm) sl1 slc
        exact rangeList_eq_pointwise hu1 (by omega) (by omega) hreq
      -- pointwise agreement on the second range
      have hr2 : ∀ k : Int, u2 ≤ k → k ≤ v2 →
          getE (quickSort (quickSort a u1 v1) u2 v2) k = getE (quickSort a u2 v2) k := by
        have p2 : (rangeList (quickSort a u2 v2) u2 v2).Perm (rangeList a u2 v2) :=
          SubPerm_rangeList sd2 hu2 hv2s
        have pb : (rangeList (quickSort (quickSort a u1 v1) u2 v2) u2 v2).Perm
            (rangeList (quickSort a u1 v1) u2 v2) :=
          SubPerm_rangeList sb hu2 (by omega)
        have rd1 : rangeList (quickSort a u1 v1) u2 v2 = rangeList a u2 v2 :=
          rangeList_congr hu2 (by omega) (by omega)
            (fun k hk1 hk2 => sd1.frame k (by omega) (by omega)
              (by
                by_contra hcon
                push_neg at hcon
                exact hdisj k (by omega) (by omega) hk1 hk2))
        rw [rd1] at pb
        have sl2 : (rangeList (quickSort a u2 v2) u2 v2).Sorted (fun x y => x ≤ y) :=
          sortedRange_rangeList hu2 (by omega) so2
        have slb : (rangeList (quickSort (quickSort a u1 v1) u2 v2) u2 v2).Sorted
            (fun x y => x ≤ y) :=
          sortedRange_rangeList hu2 (by omega) sob
        have hreq : rangeList (quickSort (quickSort a u1 v1) u2 v2) u2 v2
            = rangeList (quickSort a u2 v2) u2 v2 :=
          List.eq_of_perm_of_sorted (pb.trans p2.symm) slb sl2
        exact rangeList_eq_pointwise hu2 (by omega) (by omega) hreq
      apply array_ext_getE (by omega)
      intro k k0 ksz
      by_cases hk1 : u1 ≤ k ∧ k ≤ v1
      · have hout2 : k < u2 ∨ v2 < k := by
          by_contra hcon
          push_neg at hcon
          exact hdisj k hk1.1 hk1.2 (by omega) (by omega)
        have eb : getE (quickSort (quickSort a u1 v1) u2 v2) k
            = getE (quickSort a u1 v1) k :=
          sb.frame k k0 (by omega) hout2
        rw [eb]
        exact hr1 k hk1.1 hk1.2
      · by_cases hk2 : u2 ≤ k ∧ k ≤ v2
        · have hout1 : k < u1 ∨ v1 < k := by omega
          have ec : getE (quickSort (quickSort a u2 v2) u1 v1) k
              = getE (quickSort a u2 v2) k :=
            sc.frame k k0 (by omega) hout1
          rw [ec]
          exact hr2 k hk2.1 hk2.2
        · have hout1 : k < u1 ∨ v1 < k := by omega
          have hout2 : k < u2 ∨ v2 < k := by omega
          have eb : getE (quickSort (quickSort a u1 v1) u2 v2) k
              = getE (quickSort a u1 v1) k :=
            sb.frame k k0 (by omega) hout2
          have eb2 : getE (quickSort a u1 v1) k = getE a k :=
            sd1.frame k k0 (by omega) hout1
          have ec : getE (quickSort (quickSort a u2 v2) u1 v1) k
              = getE (quickSort a u2 v2) k :=
            sc.frame k k0 (by omega) hout1
          have ec2 : getE (quickSort a u2 v2) k = getE a k :=
            sd2.frame k k0 (by omega) hout2
          rw [eb, eb2, ec, ec2]
    · have e : ∀ x : Array Int, quickSort x u2 v2 = x := fun x => by
        rw [quickSort_eq, if_neg t2]
      rw [e, e]
  · have e : ∀ x : Array Int, quickSort x u1 v1 = x := fun x => by
      rw [quickSort_eq, if_neg t1]
    rw [e, e]

theorem iterLoop_nil (arr : Array Int) : iterLoop arr [] = arr := by
  rw [iterLoop]

theorem iterLoop_cons (arr : Array Int) (low high : Int) (rest : List (Int × Int)) :
    iterLoop arr ((low, high) :: rest) =
      if low < high then
        iterLoop (partition arr low high).1
          (((partition arr low high).2 + 1, high)
            :: (low, (partition arr low high).2 - 1) :: rest)
      else iterLoop arr rest := by
  rw [iterLoop]
  by_cases h : low < high
  · simp [h]
  · simp [h]

/-- Sorting each stacked range in turn with the recursive `quickSort`;
the reference point for the iterative loop. -/
def sortStack (a : Array Int) (S : List (Int × Int)) : Array Int :=
  S.foldl (fun b r => quickSort b r.1 r.2) a

/-- The stack invariant of `iterativeQuickSort`: every nontrivial stacked
range lies inside the array, and the stacked ranges are pairwise disjoint. -/
def ValidStack (N : Int) (S : List (Int × Int)) : Prop :=
  (∀ r ∈ S, r.1 < r.2 → 0 ≤ r.1 ∧ r.2 < N) ∧
    S.Pairwise (fun r s => ∀ k : Int, r.1 ≤ k → k ≤ r.2 → s.1 ≤ k → k ≤ s.2 → False)

theorem iterLoop_eq_sortStack : ∀ (w : Nat) (arr : Array Int) (S : List (Int × Int)),
    stackWeight S ≤ w → ValidStack (arr.size : Int) S →
    iterLoop arr S = sortStack arr S := by
  intro w
  induction w with
  | zero =>
    intro arr S hw hv
    match S with
    | [] => rw [iterLoop_nil, sortStack]; rfl
    | r :: rest =>
      exfalso
      have : 1 ≤ stackWeight (r :: rest) := by
        simp only [stackWeight]
        omega
      omega
  | succ w ih =>
    intro arr S hw hv
    match S with
    | [] => rw [iterLoop_nil, sortStack]; rfl
    | (low, high) :: rest =>
      have hviter : ∀ r ∈ rest, r.1 < r.2 → 0 ≤ r.1 ∧ r.2 < (arr.size : Int) :=
        fun r hr => hv.1 r (List.mem_cons_of_mem _ hr)
      have hpair := hv.2
      rw [List.pairwise_cons] at hpair
      by_cases h : low < high
      · obtain ⟨hlow, hhigh⟩ := hv.1 (low, high) (List.mem_cons_self _ _) h
        obtain ⟨a1, p, hpeq, hp1, hp2, hsz1, hsub1, _, _, _⟩ :=
          partition_spec arr low high hlow (le_of_lt h) hhigh
        have hpe1 : (partition arr low high).1 = a1 := by rw [hpeq]
        have hpe2 : (partition arr low high).2 = p := by rw [hpeq]
        rw [iterLoop_cons, if_pos h, hpe1, hpe2]
        have hsz1' : a1.size = arr.size := hsz1
        have hw2 : stackWeight ((p + 1, high) :: (low, p - 1) :: rest) ≤ w := by
          simp only [stackWeight] at hw ⊢
          omega
        have hv2 : ValidStack (a1.size : Int) ((p + 1, high) :: (low, p - 1) :: rest) := by
          constructor
          · intro r hr hrlt
            rw [hsz1']
            rcases List.mem_cons.mp hr with hr1 | hr2
            · rw [hr1] at hrlt ⊢
              exact ⟨by omega, by omega⟩
            · rcases List.mem_cons.mp hr2 with hr3 | hr4
              · rw [hr3] at hrlt ⊢
                exact ⟨by omega, by omega⟩
              · exact hviter r hr4 hrlt
          · rw [List.pairwise_cons]
            constructor
            · intro s hs k hk1 hk2 hk3 hk4
              rcases List.mem_cons.mp hs with hs1 | hs2
              · rw [hs1] at hk3 hk4
                simp only at hk1 hk2 hk3 hk4
                omega
              · exact hpair.1 s hs2 k (by omega) (by omega) hk3 hk4
            · rw [List.pairwise_cons]
              refine ⟨fun s hs k hk1 hk2 hk3 hk4 =>
                hpair.1 s hs k (by omega) (by omega) hk3 hk4, hpair.2⟩
        rw [ih a1 ((p + 1, high) :: (low, p - 1) :: rest) hw2 hv2]
        simp only [sortStack, List.foldl_cons]
        congr 1
        have hquick : quickSort arr low high
            = quickSort (quickSort a1 low (p - 1)) (p + 1) high := by
          rw [quickSort_eq, if_pos h, hpe1, hpe2]
        rw [hquick]
        exact quickSort_comm a1 (p + 1) high low (p - 1)
          (fun ht => ⟨by omega, by omega⟩) (fun ht => ⟨by omega, by omega⟩)
          (fun k hk1 hk2 hk3 hk4 => by omega)
      · rw [iterLoop_cons, if_neg h]
        have hw2 : stackWeight rest ≤ w := by
          simp only [stackWeight] at hw
          omega
        have hv2 : ValidStack (arr.size : Int) rest := ⟨hviter, hpair.2⟩
        rw [ih arr rest hw2 hv2]
        simp only [sortStack, List.foldl_cons]
        rw [quickSort_eq, if_neg h]

theorem iterativeQuickSort_eq_quickSortTop (arr : Array Int) :
    iterativeQuickSort arr = quickSortTop arr := by
  unfold iterativeQuickSort quickSortTop
  rw [iterLoop_eq_sortStack (stackWeight [(0, (arr.size : Int) - 1)]) arr _ (le_refl _)]
  · simp [sortStack]
  · constructor
    · intro r hr hrlt
      rcases List.mem_cons.mp hr with hr1 | hr2
      · rw [hr1] at hrlt ⊢
        simp only at hrlt ⊢
        omega
      · simp at hr2
    · exact List.pairwise_singleton _ _

theorem readIn_eq_some {arr : Array Int} {low high k : Int}
    (h0 : 0 ≤ low) (h2 : high < (arr.size : Int)) (hk1 : low ≤ k) (hk2 : k ≤ high) :
    readIn arr low high k = some (getE arr k) := by
  unfold readIn getO
  rw [if_pos ⟨hk1, hk2⟩, dif_pos (show 0 ≤ k ∧ k.toNat < arr.size by omega)]
  rw [getE_eq_get arr k (by omega) (by omega)]

theorem hoareScanI_spec : ∀ (fuel : Nat) (arr : Array Int) (low high pivot i ks : Int),
    0 ≤ low → high < (arr.size : Int) →
    low - 1 ≤ i → i < ks → ks ≤ high →
    pivot ≤ getE arr ks →
    (ks - i).toNat ≤ fuel →
    ∃ i2, hoareScanI arr low high pivot i fuel = some i2 ∧
      i < i2 ∧ i2 ≤ ks ∧ pivot ≤ getE arr i2 ∧
      (∀ m, i < m → m < i2 → getE arr m < pivot) := by
  intro fuel
  induction fuel with
  | zero =>
    intro arr low high pivot i ks h0 h2 hi hik hkh hstop hfuel
    exfalso
    omega
  | succ fuel ih =>
    intro arr low high pivot i ks h0 h2 hi hik hkh hstop hfuel
    have hr : hoareScanI arr low high pivot i (fuel + 1) =
        if getE arr (i + 1) < pivot then hoareScanI arr low high pivot (i + 1) fuel
        else some (i + 1) := by
      simp only [hoareScanI]
      rw [readIn_eq_some h0 h2 (by omega) (by omega)]
    rw [hr]
    by_cases hv : getE arr (i + 1) < pivot
    · rw [if_pos hv]
      have hne : i + 1 ≠ ks := by
        intro hc
        rw [hc] at hv
        omega
      obtain ⟨i2, heq, ha, hb, hc, hd⟩ :=
        ih arr low high pivot (i + 1) ks h0 h2 (by omega) (by omega) hkh hstop (by omega)
      refine ⟨i2, heq, by omega, hb, hc, ?_⟩
      intro m hm1 hm2
      by_cases hmi : m = i + 1
      · rw [hmi]
        exact hv
      · exact hd m (by omega) hm2
    · rw [if_neg hv]
      exact ⟨i + 1, rfl, by omega, by omega, by omega,
        fun m hm1 hm2 => absurd (by omega : (i : Int) < i) (lt_irrefl i)⟩

theorem hoareScanJ_spec : ∀ (fuel : Nat) (arr : Array Int) (low high pivot j ks : Int),
    0 ≤ low → high < (arr.size : Int) →
    j ≤ high + 1 → ks < j → low ≤ ks →
    getE arr ks ≤ pivot →
    (j - ks).toNat ≤ fuel →
    ∃ j2, hoareScanJ arr low high pivot j fuel = some j2 ∧
      j2 < j ∧ ks ≤ j2 ∧ getE arr j2 ≤ pivot ∧
      (∀ m, j2 < m → m < j → pivot < getE arr m) := by
  intro fuel
  induction fuel with
  | zero =>
    intro arr low high pivot j ks h0 h2 hj hkj hks hstop hfuel
    exfalso
    omega
  | succ fuel ih =>
    intro arr low high pivot j ks h0 h2 hj hkj hks hstop hfuel
    have hr : hoareScanJ arr low high pivot j (fuel + 1) =
        if pivot < getE arr (j - 1) then hoareScanJ arr low high pivot (j - 1) fuel
        else some (j - 1) := by
      simp only [hoareScanJ]
      rw [readIn_eq_some h0 h2 (by omega) (by omega)]
    rw [hr]
    by_cases hv : pivot < getE arr (j - 1)
    · rw [if_pos hv]
      have hne : j - 1 ≠ ks := by
        intro hc
        rw [hc] at hv
        omega
      obtain ⟨j2, heq, ha, hb, hc, hd⟩ :=
        ih arr low high pivot (j - 1) ks h0 h2 (by omega) (by omega) hks hstop (by omega)
      refine ⟨j2, heq, by omega, hb, hc, ?_⟩
      intro m hm1 hm2
      by_cases hmj : m = j - 1
      · rw [hmj]
        exact hv
      · exact hd m hm1 (by omega)
    · rw [if_neg hv]
      exact ⟨j - 1, rfl, by omega, by omega, by omega,
        fun m hm1 hm2 => absurd (by omega : (j : Int) < j) (lt_irrefl j)⟩

theorem hoareLoop_spec : ∀ (fuel : Nat) (arr arr0 : Array Int) (low high pivot i j : Int),
    0 ≤ low → low ≤ high → high < (arr.size : Int) →
    low - 1 ≤ i → j ≤ high + 1 → i < j →
    (∀ k, low ≤ k → k ≤ i → getE arr k ≤ pivot) →
    (∀ k, j ≤ k → k ≤ high → pivot ≤ getE arr k) →
    (∃ k, i < k ∧ k ≤ high ∧ pivot ≤ getE arr k) →
    (∃ k, low ≤ k ∧ k < j ∧ getE arr k ≤ pivot) →
    ((i = low - 1 ∧ j = high + 1 ∧ getE arr low = pivot) ∨ (low ≤ i ∧ j ≤ high)) →
    SubPerm arr0 arr low high →
    (j - i).toNat ≤ 2 * fuel →
    ∃ a2 j2, hoareLoop arr low high pivot i j fuel = some (a2, j2) ∧
      low ≤ j2 ∧ j2 ≤ high ∧ (low < high → j2 < high) ∧
      (∀ k, low ≤ k → k ≤ j2 → getE a2 k ≤ pivot) ∧
      (∀ k, j2 < k → k ≤ high → pivot ≤ getE a2 k) ∧
      SubPerm arr0 a2 low high := by
  intro fuel
  induction fuel with
  | zero =>
    intro arr arr0 low high pivot i j h0 h1 h2 hi hj hij hLeft hRight hSI hSJ hB hPerm hfuel
    exfalso
    omega
  | succ fuel ih =>
    intro arr arr0 low high pivot i j h0 h1 h2 hi hj hij hLeft hRight hSI hSJ hB hPerm hfuel
    obtain ⟨ksI, hksI1, hksI2, hksI3⟩ := hSI
    obtain ⟨ksJ, hksJ1, hksJ2, hksJ3⟩ := hSJ
    obtain ⟨i2, heqI, hi2a, hi2b, hi2c, hgapI⟩ :=
      hoareScanI_spec (arr.size + 1) arr low high pivot i ksI h0 h2 hi hksI1 hksI2 hksI3
        (by omega)
    obtain ⟨j2, heqJ, hj2a, hj2b, hj2c, hgapJ⟩ :=
      hoareScanJ_spec (arr.size + 1) arr low high pivot j ksJ h0 h2 hj hksJ2 hksJ1 hksJ3
        (by omega)
    have hi2low : low ≤ i2 := by omega
    have hj2high : j2 ≤ high := by omega
    have hr : hoareLoop arr low high pivot i j (fuel + 1) =
        if i2 ≥ j2 then some (arr, j2)
        else hoareLoop (swap arr i2 j2) low high pivot i2 j2 fuel := by
      simp only [hoareLoop]
      rw [heqI, heqJ]
    rw [hr]
    by_cases hret : i2 ≥ j2
    · rw [if_pos hret]
      have hj2low : low ≤ j2 := by omega
      have hstrict : low < high → j2 < high := by
        intro hlh
        rcases hB with ⟨hbi, hbj, hbp⟩ | ⟨hbi, hbj⟩
        · -- first iteration: the i-scan stops at `low` (the pivot itself)
          obtain ⟨i3, heqI3, hi3a, hi3b, _, _⟩ :=
            hoareScanI_spec (arr.size + 1) arr low high pivot i low h0 h2 hi (by omega)
              (by omega) (by rw [hbp]) (by omega)
          have hsame : i2 = i3 := by
            rw [heqI] at heqI3
            exact Option.some.inj heqI3
          omega
        · omega
      refine ⟨arr, j2, rfl, hj2low, hj2high, hstrict, ?_, ?_, hPerm⟩
      · intro k hk1 hk2
        by_cases hki : k ≤ i
        · exact hLeft k hk1 hki
        · by_cases hkj : k = j2
          · rw [hkj]
            exact hj2c
          · exact le_of_lt (hgapI k (by omega) (by omega))
      · intro k hk1 hk2
        by_cases hkj : j ≤ k
        · exact hRight k hkj hk2
        · exact le_of_lt (hgapJ k hk1 (by omega))
    · rw [if_neg hret]
      have hij2 : i2 < j2 := by omega
      have hbi2 : 0 ≤ i2 ∧ i2.toNat < arr.size := by omega
      have hbj2 : 0 ≤ j2 ∧ j2.toNat < arr.size := by omega
      have hswap : SubPerm arr (swap arr i2 j2) low high :=
        swap_subPerm arr hi2low (by omega) (by omega) hj2high
      have hsz : (swap arr i2 j2).size = arr.size := size_swap_eq arr i2 j2
      have hLeft2 : ∀ k, low ≤ k → k ≤ i2 → getE (swap arr i2 j2) k ≤ pivot := by
        intro k hk1 hk2
        by_cases hki : k = i2
        · rw [hki, getE_swap_left arr hbi2.1 hbi2.2 hbj2.1 hbj2.2]
          exact hj2c
        · rw [getE_swap_ne arr k (by omega) (by omega)]
          by_cases hkle : k ≤ i
          · exact hLeft k hk1 hkle
          · exact le_of_lt (hgapI k (by omega) (by omega))
      have hRight2 : ∀ k, j2 ≤ k → k ≤ high → pivot ≤ getE (swap arr i2 j2) k := by
        intro k hk1 hk2
        by_cases hkj : k = j2
        · rw [hkj, getE_swap_right arr hbi2.1 hbi2.2 hbj2.1 hbj2.2]
          exact hi2c
        · rw [getE_swap_ne arr k (by omega) (by omega)]
          by_cases hkge : j ≤ k
          · exact hRight k hkge hk2
          · exact le_of_lt (hgapJ k (by omega) (by omega))
      have hSI2 : ∃ k, i2 < k ∧ k ≤ high ∧ pivot ≤ getE (swap arr i2 j2) k := by
        refine ⟨j2, hij2, hj2high, ?_⟩
        rw [getE_swap_right arr hbi2.1 hbi2.2 hbj2.1 hbj2.2]
        exact hi2c
      have hSJ2 : ∃ k, low ≤ k ∧ k < j2 ∧ getE (swap arr i2 j2) k ≤ pivot := by
        refine ⟨i2, hi2low, hij2, ?_⟩
        rw [getE_swap_left arr hbi2.1 hbi2.2 hbj2.1 hbj2.2]
        exact hj2c
      obtain ⟨a2, jf, heqf, hf1, hf2, hf3, hf4, hf5, hf6⟩ :=
        ih (swap arr i2 j2) arr0 low high pivot i2 j2 h0 h1 (by omega)
          (by omega) (by omega) hij2 hLeft2 hRight2 hSI2 hSJ2
          (Or.inr ⟨hi2low, hj2high⟩) (hPerm.trans hswap) (by omega)
      exact ⟨a2, jf, heqf, hf1, hf2, hf3, hf4, hf5, hf6⟩

theorem hoarePartition_spec (arr : Array Int) (low high : Int)
    (h0 : 0 ≤ low) (h1 : low ≤ high) (h2 : high < (arr.size : Int)) :
    ∃ a2 j, hoarePartition arr low high = some (a2, j) ∧
      low ≤ j ∧ j ≤ high ∧ (low < high → j < high) ∧
      (∀ k, low ≤ k → k ≤ j → getE a2 k ≤ getE arr low) ∧
      (∀ k, j < k → k ≤ high → getE arr low ≤ getE a2 k) ∧
      SubPerm arr a2 low high := by
  unfold hoarePartition
  rw [readIn_eq_some h0 h2 (le_refl low) h1]
  exact hoareLoop_spec (arr.size + 2) arr arr low high (getE arr low) (low - 1) (high + 1)
    h0 h1 h2 (by omega) (by omega) (by omega)
    (fun k hk1 hk2 => absurd (hk1.trans hk2) (by omega))
    (fun k hk1 hk2 => absurd (hk1.trans hk2) (by omega))
    ⟨low, by omega, h1, le_refl _⟩
    ⟨low, le_refl low, by omega, le_refl _⟩
    (Or.inl ⟨rfl, rfl, rfl⟩)
    (SubPerm.refl arr low high)
    (by omega)

theorem countP_ge_of_prefix (L : List Int) (p : Int → Bool) (m : Nat) (hm : m ≤ L.length)
    (h : ∀ t, t < m → p (L.getD t 0) = true) : m ≤ L.countP p := by
  have hsplit : L.countP p = (L.take m).countP p + (L.drop m).countP p := by
    rw [← List.countP_append, List.take_append_drop]
  have hlen : (L.take m).length = m := by
    rw [List.length_take]
    omega
  have htake : (L.take m).countP p = m := by
    rw [List.countP_eq_length.mpr, hlen]
    intro a ha
    rcases List.mem_iff_getElem.mp ha with ⟨t, ht, hval⟩
    have ht2 : t < m := by omega
    have htL : t < L.length := by omega
    rw [← hval, List.getElem_take, ← List.getD_eq_getElem _ 0 htL]
    exact h t ht2
  omega

theorem countP_le_of_suffix (L : List Int) (p : Int → Bool) (m : Nat)
    (h : ∀ t, m ≤ t → t < L.length → p (L.getD t 0) = false) : L.countP p ≤ m := by
  have hsplit : L.countP p = (L.take m).countP p + (L.drop m).countP p := by
    rw [← List.countP_append, List.take_append_drop]
  have hdrop : (L.drop m).countP p = 0 := by
    rw [List.countP_eq_zero]
    intro a ha
    rcases List.mem_iff_getElem.mp ha with ⟨t, ht, hval⟩
    have hlen2 : m + t < L.length := by
      rw [List.length_drop] at ht
      omega
    rw [← hval, List.getElem_drop, ← List.getD_eq_getElem _ 0 hlen2]
    rw [h (m + t) (by omega) hlen2]
    simp
  have htake : (L.take m).countP p ≤ m := by
    have h1 := List.countP_le_length (l := L.take m) (p := p)
    rw [List.length_take] at h1
    omega
  omega

theorem sorted_getD_eq (S : List Int) (hS : S.Sorted (fun x y => x ≤ y)) (m : Nat)
    (hm : m < S.length) (v : Int)
    (h1 : S.countP (fun x => decide (x < v)) ≤ m)
    (h2 : m < S.countP (fun x => decide (x ≤ v))) :
    S.getD m 0 = v := by
  have hpair := List.pairwise_iff_getElem.mp hS
  rcases lt_trichotomy (S.getD m 0) v with hlt | heq | hgt
  · exfalso
    have hge : m + 1 ≤ S.countP (fun x => decide (x < v)) := by
      apply countP_ge_of_prefix S _ (m + 1) (by omega)
      intro t ht
      have htS : t < S.length := by omega
      have hle : S.getD t 0 ≤ S.getD m 0 := by
        rcases Nat.lt_or_ge t m with hc | hc
        · rw [List.getD_eq_getElem _ _ htS, List.getD_eq_getElem _ _ hm]
          exact hpair t m htS hm hc
        · have hceq : t = m := by omega
          rw [hceq]
      simp only [decide_eq_true_eq]
      omega
    omega
  · exact heq
  · exfalso
    have hle2 : S.countP (fun x => decide (x ≤ v)) ≤ m := by
      apply countP_le_of_suffix
      intro t htm htS
      have hge2 : S.getD m 0 ≤ S.getD t 0 := by
        rcases Nat.lt_or_ge m t with hc | hc
        · rw [List.getD_eq_getElem _ _ htS, List.getD_eq_getElem _ _ hm]
          exact hpair m t hm htS hc
        · have hceq : t = m := by omega
          rw [hceq]
      simp only [decide_eq_false_iff_not]
      omega
    omega

theorem topSpec_of_spec {arr out : Array Int}
    (hsub : SubPerm arr out 0 ((arr.size : Int) - 1))
    (hsort : SortedRange out 0 ((arr.size : Int) - 1)) :
    out.toList.Perm arr.toList ∧ NonDescending out := by
  refine ⟨hsub.perm, ?_⟩
  intro i hi
  have hsz : out.size = arr.size := hsub.size_eq
  exact hsort (i : Int) ((i : Int) + 1) (by omega) (by omega) (by omega) (by omega)
    (by omega)

theorem sorted_output_unique {arr b c : Array Int}
    (hb : SubPerm arr b 0 ((arr.size : Int) - 1))
    (hsb : SortedRange b 0 ((arr.size : Int) - 1))
    (hc : SubPerm arr c 0 ((arr.size : Int) - 1))
    (hsc : SortedRange c 0 ((arr.size : Int) - 1)) :
    b = c := by
  have hszb : b.size = arr.size := hb.size_eq
  have hszc : c.size = arr.size := hc.size_eq
  have hperm : b.toList.Perm c.toList := hb.perm.trans hc.perm.symm
  have hsb2 : SortedRange b 0 ((b.size : Int) - 1) := by
    intro u v h1 h2 h3 h4 h5
    exact hsb u v h1 h2 (by omega) h4 h5
  have hsc2 : SortedRange c 0 ((c.size : Int) - 1) := by
    intro u v h1 h2 h3 h4 h5
    exact hsc u v h1 h2 (by omega) h4 h5
  have hlist : b.toList = c.toList := sorted_perm_unique hperm hsb2 hsc2
  exact array_ext_getE (by omega) (fun k _ _ => getE_of_toList_eq hlist k)

theorem threeWayGo_const : ∀ (n : Nat) (arr : Array Int) (pivot lt i gt : Int),
    (∀ k, i ≤ k → k ≤ gt → getE arr k = pivot) → (n : Int) = gt + 1 - i →
    threeWayGo arr pivot lt i gt n = (arr, lt, gt) := by
  intro n
  induction n with
  | zero => intro arr pivot lt i gt hall hn; rfl
  | succ n ih =>
    intro arr pivot lt i gt hall hn
    have hieq : getE arr i = pivot := hall i (le_refl i) (by omega)
    simp only [threeWayGo]
    rw [if_neg (by omega), if_neg (by omega)]
    exact ih arr pivot lt (i + 1) gt (fun k hk1 hk2 => hall k (by omega) hk2) (by omega)

/-- Fuel-indexed `quickSort`: `none` when the recursion would need to go
deeper than the fuel.  `quickSortF_eq` below shows that fuel one more than
the size of the remaining range always suffices: the recursion is
well-founded, with depth bounded by the size of the range. -/
def quickSortF : Nat → Array Int → Int → Int → Option (Array Int)
  | 0, _, _, _ => none
  | fuel + 1, arr, low, high =>
    if low < high then
      (quickSortF fuel (partition arr low high).1 low
          ((partition arr low high).2 - 1)).bind
        (fun left => quickSortF fuel left ((partition arr low high).2 + 1) high)
    else some arr

/-- Fuel-indexed `randomizedQuickSort`. -/
def randomizedQuickSortF (ρ : Nat → Nat) :
    Nat → Array Int → Int → Int → Nat → Option (Array Int × Nat)
  | 0, _, _, _, _ => none
  | fuel + 1, arr, low, high, k =>
    if low < high then
      (randomizedQuickSortF ρ fuel
          (partition (swap arr (low + ((ρ k % (high - low + 1).toNat : Nat) : Int)) high)
            low high).1
          low
          ((partition (swap arr (low + ((ρ k % (high - low + 1).toNat : Nat) : Int)) high)
            low high).2 - 1)
          (k + 1)).bind
        (fun left => randomizedQuickSortF ρ fuel left.1
          ((partition (swap arr (low + ((ρ k % (high - low + 1).toNat : Nat) : Int)) high)
            low high).2 + 1)
          high left.2)
    else some (arr, k)

/-- Fuel-indexed `medianOfThreeQuickSort`. -/
def medianOfThreeQuickSortF : Nat → Array Int → Int → Int → Option (Array Int)
  | 0, _, _, _ => none
  | fuel + 1, arr, low, high =>
    if low < high then
      (medianOfThreeQuickSortF fuel
          (partition (swap (medianOfThree arr low high).1 (medianOfThree arr low high).2
            high) low high).1
          low
          ((partition (swap (medianOfThree arr low high).1 (medianOfThree arr low high).2
            high) low high).2 - 1)).bind
        (fun left => medianOfThreeQuickSortF fuel left
          ((partition (swap (medianOfThree arr low high).1 (medianOfThree arr low high).2
            high) low high).2 + 1) high)
    else some arr

/-- Fuel-indexed `threeWayQuickSort`. -/
def threeWayQuickSortF : Nat → Array Int → Int → Int → Option (Array Int)
  | 0, _, _, _ => none
  | fuel + 1, arr, low, high =>
    if low < high then
      (threeWayQuickSortF fuel (threeWayPartition arr low high).1 low
          ((threeWayPartition arr low high).2.1 - 1)).bind
        (fun left => threeWayQuickSortF fuel left
          ((threeWayPartition arr low high).2.2 + 1) high)
    else some arr

/-- Fuel-indexed iterative loop: fuel one more than the weight of the
stacked ranges always suffices. -/
def iterLoopF : Nat → Array Int → List (Int × Int) → Option (Array Int)
  | 0, _, _ => none
  | fuel + 1, arr, stack =>
    match stack with
    | [] => some arr
    | (low, high) :: rest =>
      if low < high then
        iterLoopF fuel (partition arr low high).1
          (((partition arr low high).2 + 1, high)
            :: (low, (partition arr low high).2 - 1) :: rest)
      else iterLoopF fuel arr rest

theorem quickSortF_eq : ∀ (fuel : Nat) (arr : Array Int) (low high : Int),
    (high + 1 - low).toNat < fuel →
    quickSortF fuel arr low high = some (quickSort arr low high) := by
  intro fuel
  induction fuel with
  | zero => intro arr low high hf; omega
  | succ fuel ih =>
    intro arr low high hf
    simp only [quickSortF]
    by_cases h : low < high
    · have hp := partition_snd_bounds arr low high (le_of_lt h)
      rw [quickSort_eq, if_pos h, if_pos h, ih _ _ _ (by omega), Option.some_bind,
        ih _ _ _ (by omega)]
    · rw [quickSort_eq, if_neg h, if_neg h]

theorem randomizedQuickSortF_eq : ∀ (fuel : Nat) (ρ : Nat → Nat) (arr : Array Int)
    (low high : Int) (k : Nat), (high + 1 - low).toNat < fuel →
    randomizedQuickSortF ρ fuel arr low high k
      = some (randomizedQuickSort ρ arr low high k) := by
  intro fuel
  induction fuel with
  | zero => intro ρ arr low high k hf; omega
  | succ fuel ih =>
    intro ρ arr low high k hf
    simp only [randomizedQuickSortF]
    by_cases h : low < high
    · have hp := partition_snd_bounds
        (swap arr (low + ((ρ k % (high - low + 1).toNat : Nat) : Int)) high) low high
        (le_of_lt h)
      rw [randomizedQuickSort_eq, if_pos h, if_pos h, ih _ _ _ _ _ (by omega),
        Option.some_bind, ih _ _ _ _ _ (by omega)]
    · rw [randomizedQuickSort_eq, if_neg h, if_neg h]

theorem medianOfThreeQuickSortF_eq : ∀ (fuel : Nat) (arr : Array Int) (low high : Int),
    (high + 1 - low).toNat < fuel →
    medianOfThreeQuickSortF fuel arr low high
      = some (medianOfThreeQuickSort arr low high) := by
  intro fuel
  induction fuel with
  | zero => intro arr low high hf; omega
  | succ fuel ih =>
    intro arr low high hf
    simp only [medianOfThreeQuickSortF]
    by_cases h : low < high
    · have hp := partition_snd_bounds
        (swap (medianOfThree arr low high).1 (medianOfThree arr low high).2 high) low high
        (le_of_lt h)
      rw [medianOfThreeQuickSort_eq, if_pos h, if_pos h, ih _ _ _ (by omega),
        Option.some_bind, ih _ _ _ (by omega)]
    · rw [medianOfThreeQuickSort_eq, if_neg h, if_neg h]

theorem threeWayQuickSortF_eq : ∀ (fuel : Nat) (arr : Array Int) (low high : Int),
    (high + 1 - low).toNat < fuel →
    threeWayQuickSortF fuel arr low high = some (threeWayQuickSort arr low high) := by
  intro fuel
  induction fuel with
  | zero => intro arr low high hf; omega
  | succ fuel ih =>
    intro arr low high hf
    simp only [threeWayQuickSortF]
    by_cases h : low < high
    · have hp := threeWayPartition_snd_bounds arr low high h
      rw [threeWayQuickSort_eq, if_pos h, if_pos h, ih _ _ _ (by omega),
        Option.some_bind, ih _ _ _ (by omega)]
    · rw [threeWayQuickSort_eq, if_neg h, if_neg h]

theorem iterLoopF_eq : ∀ (fuel : Nat) (arr : Array Int) (stack : List (Int × Int)),
    stackWeight stack < fuel →
    iterLoopF fuel arr stack = some (iterLoop arr stack) := by
  intro fuel
  induction fuel with
  | zero =>
    intro arr stack hf
    omega
  | succ fuel ih =>
    intro arr stack hf
    match stack with
    | [] =>
      simp only [iterLoopF]
      rw [iterLoop_nil]
    | (low, high) :: rest =>
      simp only [iterLoopF]
      rw [iterLoop_cons]
      by_cases h : low < high
      · have hp := partition_snd_bounds arr low high (le_of_lt h)
        rw [if_pos h, if_pos h, ih]
        simp only [stackWeight] at hf ⊢
        omega
      · rw [if_neg h, if_neg h, ih]
        simp only [stackWeight] at hf
        omega

/-- C1: for every finite numeric sequence, each sort variant called with
default bounds — `quickSort`, `randomizedQuickSort` (for every choice of the
random pivot indices, i.e. every oracle `ρ` and counter `k`),
`medianOfThreeQuickSort`, `iterativeQuickSort`, and `threeWayQuickSort` —
returns a permutation of the input (same multiset of elements) that is
non-descending (every adjacent pair in order). -/
theorem claim_C1 (arr : Array Int) (ρ : Nat → Nat) (k : Nat) :
    ((quickSortTop arr).toList.Perm arr.toList ∧ NonDescending (quickSortTop arr)) ∧
    ((randomizedQuickSortTop ρ k arr).toList.Perm arr.toList ∧
      NonDescending (randomizedQuickSortTop ρ k arr)) ∧
    ((medianOfThreeQuickSortTop arr).toList.Perm arr.toList ∧
      NonDescending (medianOfThreeQuickSortTop arr)) ∧
    ((iterativeQuickSort arr).toList.Perm arr.toList ∧
      NonDescending (iterativeQuickSort arr)) ∧
    ((threeWayQuickSortTop arr).toList.Perm arr.toList ∧
      NonDescending (threeWayQuickSortTop arr)) := by
  have h2 : ((arr.size : Int) - 1) < (arr.size : Int) := by omega
  refine ⟨?_, ?_, ?_, ?_, ?_⟩
  · obtain ⟨hs, ho⟩ := quickSort_spec ((arr.size : Int) - 1 + 1 - 0).toNat arr 0
      ((arr.size : Int) - 1) (le_refl _) (le_refl 0) h2
    simp only [quickSortTop]
    exact topSpec_of_spec hs ho
  · obtain ⟨hs, ho⟩ := randomizedQuickSort_spec ((arr.size : Int) - 1 + 1 - 0).toNat ρ arr 0
      ((arr.size : Int) - 1) k (le_refl _) (le_refl 0) h2
    simp only [randomizedQuickSortTop]
    exact topSpec_of_spec hs ho
  · obtain ⟨hs, ho⟩ := medianOfThreeQuickSort_spec ((arr.size : Int) - 1 + 1 - 0).toNat arr 0
      ((arr.size : Int) - 1) (le_refl _) (le_refl 0) h2
    simp only [medianOfThreeQuickSortTop]
    exact topSpec_of_spec hs ho
  · obtain ⟨hs, ho⟩ := quickSort_spec ((arr.size : Int) - 1 + 1 - 0).toNat arr 0
      ((arr.size : Int) - 1) (le_refl _) (le_refl 0) h2
    rw [iterativeQuickSort_eq_quickSortTop]
    simp only [quickSortTop]
    exact topSpec_of_spec hs ho
  · obtain ⟨hs, ho⟩ := threeWayQuickSort_spec ((arr.size : Int) - 1 + 1 - 0).toNat arr 0
      ((arr.size : Int) - 1) (le_refl _) (le_refl 0) h2
    simp only [threeWayQuickSortTop]
    exact topSpec_of_spec hs ho

/-- C2: for `0 ≤ low ≤ high < arr.size`, the Lomuto `partition` returns an
index `p` in `[low, high]` with the pivot (the original `arr[high]`) at
position `p`, everything in `[low, p-1]` at most the pivot, everything in
`[p, high]` at least the pivot, the sub-range a permutation of its original
contents, and the pivot at its final sorted position relative to the
sub-range: every sorted rearrangement of the sub-range's contents has the
pivot at relative position `p - low`. -/
theorem claim_C2 (arr : Array Int) (low high : Int)
    (h0 : 0 ≤ low) (h1 : low ≤ high) (h2 : high < (arr.size : Int)) :
    ∃ a2 p, partition arr low high = (a2, p) ∧
      low ≤ p ∧ p ≤ high ∧
      getE a2 p = getE arr high ∧
      (∀ k, low ≤ k → k ≤ p - 1 → getE a2 k ≤ getE a2 p) ∧
      (∀ k, p ≤ k → k ≤ high → getE a2 p ≤ getE a2 k) ∧
      (rangeList a2 low high).Perm (rangeList arr low high) ∧
      (∀ S : List Int, S.Perm (rangeList a2 low high) →
        S.Sorted (fun x y => x ≤ y) → S.getD (p - low).toNat 0 = getE a2 p) := by
  obtain ⟨a2, p, heq, hp1, hp2, hsz, hsub, hpv, hL, hR⟩ :=
    partition_spec arr low high h0 h1 h2
  have hszeq : a2.size = arr.size := hsub.size_eq
  refine ⟨a2, p, heq, hp1, hp2, hpv, (fun k hk1 hk2 => hL k hk1 (by omega)), ?_,
    SubPerm_rangeList hsub h0 h2, ?_⟩
  · intro k hk1 hk2
    by_cases hkp : k = p
    · rw [hkp]
    · exact le_of_lt (hR k (by omega) hk2)
  · intro S hSperm hSsort
    have hlen : (rangeList a2 low high).length = (high + 1 - low).toNat :=
      rangeList_length a2 h0 (by omega)
    have hSlen : S.length = (high + 1 - low).toNat := by
      rw [hSperm.length_eq, hlen]
    have hc1 : (rangeList a2 low high).countP (fun x => decide (x < getE a2 p))
        ≤ (p - low).toNat := by
      apply countP_le_of_suffix
      intro t ht htl
      rw [hlen] at htl
      rw [rangeList_getD a2 h0 t htl (by omega)]
      have hge : getE a2 p ≤ getE a2 (low + t) := by
        by_cases hkp : low + (t : Int) = p
        · rw [hkp]
        · exact le_of_lt (hR (low + t) (by omega) (by omega))
      simp only [decide_eq_false_iff_not]
      omega
    have hc2 : (p - low).toNat
        < (rangeList a2 low high).countP (fun x => decide (x ≤ getE a2 p)) := by
      have hge := countP_ge_of_prefix (rangeList a2 low high)
        (fun x => decide (x ≤ getE a2 p)) ((p - low).toNat + 1) (by omega) ?_
      · omega
      · intro t ht
        have htl : t < (high + 1 - low).toNat := by omega
        rw [rangeList_getD a2 h0 t htl (by omega)]
        have hle : getE a2 (low + t) ≤ getE a2 p := by
          by_cases hkp : low + (t : Int) = p
          · rw [hkp]
          · exact hL (low + t) (by omega) (by omega)
        simp only [decide_eq_true_eq]
        exact hle
    apply sorted_getD_eq S hSsort _ (by omega) _ ?_ ?_
    · rw [hSperm.countP_eq]
      exact hc1
    · rw [hSperm.countP_eq]
      exact hc2

/-- Witness for C2 at the concrete input `#[3, 1, 2]`, `low = 0`,
`high = 2`. -/
theorem claim_C2_witness :
    ∃ a2 p, partition (#[3, 1, 2] : Array Int) 0 2 = (a2, p) ∧
      (0 : Int) ≤ p ∧ p ≤ 2 ∧
      getE a2 p = getE (#[3, 1, 2] : Array Int) 2 ∧
      (∀ k, (0 : Int) ≤ k → k ≤ p - 1 → getE a2 k ≤ getE a2 p) ∧
      (∀ k, p ≤ k → k ≤ 2 → getE a2 p ≤ getE a2 k) ∧
      (rangeList a2 0 2).Perm (rangeList (#[3, 1, 2] : Array Int) 0 2) ∧
      (∀ S : List Int, S.Perm (rangeList a2 0 2) →
        S.Sorted (fun x y => x ≤ y) → S.getD (p - 0).toNat 0 = getE a2 p) :=
  claim_C2 #[3, 1, 2] 0 2 (by decide) (by decide) (by decide)

/-- C3: all variants produce identical final sorted output: the iterative
variant, the randomized variant (under any random pivot choices), the
median-of-three variant and the three-way variant agree element for element
with the recursive `quickSort` with default bounds. -/
theorem claim_C3 (arr : Array Int) (ρ : Nat → Nat) (k : Nat) :
    iterativeQuickSort arr = quickSortTop arr ∧
    randomizedQuickSortTop ρ k arr = quickSortTop arr ∧
    medianOfThreeQuickSortTop arr = quickSortTop arr ∧
    threeWayQuickSortTop arr = quickSortTop arr := by
  have h2 : ((arr.size : Int) - 1) < (arr.size : Int) := by omega
  obtain ⟨hq, hqs⟩ := quickSort_spec ((arr.size : Int) - 1 + 1 - 0).toNat arr 0
    ((arr.size : Int) - 1) (le_refl _) (le_refl 0) h2
  refine ⟨iterativeQuickSort_eq_quickSortTop arr, ?_, ?_, ?_⟩
  · obtain ⟨hr, hrs⟩ := randomizedQuickSort_spec ((arr.size : Int) - 1 + 1 - 0).toNat ρ arr 0
      ((arr.size : Int) - 1) k (le_refl _) (le_refl 0) h2
    simp only [randomizedQuickSortTop, quickSortTop]
    exact sorted_output_unique hr hrs hq hqs
  · obtain ⟨hr, hrs⟩ := medianOfThreeQuickSort_spec ((arr.size : Int) - 1 + 1 - 0).toNat arr 0
      ((arr.size : Int) - 1) (le_refl _) (le_refl 0) h2
    simp only [medianOfThreeQuickSortTop, quickSortTop]
    exact sorted_output_unique hr hrs hq hqs
  · obtain ⟨hr, hrs⟩ := threeWayQuickSort_spec ((arr.size : Int) - 1 + 1 - 0).toNat arr 0
      ((arr.size : Int) - 1) (le_refl _) (le_refl 0) h2
    simp only [threeWayQuickSortTop, quickSortTop]
    exact sorted_output_unique hr hrs hq hqs

/-- C4: every sort variant terminates on every input, for all bounds and
(for the randomized variant) all random choices: each equals its
fuel-indexed version at fuel one more than the size of the range (or, for
the iterative variant, than the weight of the stacked ranges), i.e. the
recursion is well-founded with depth bounded by the size of the remaining
range / remaining stacked ranges. -/
theorem claim_C4 (arr : Array Int) (low high : Int) (ρ : Nat → Nat) (k : Nat) :
    quickSortF ((high + 1 - low).toNat + 1) arr low high
      = some (quickSort arr low high) ∧
    randomizedQuickSortF ρ ((high + 1 - low).toNat + 1) arr low high k
      = some (randomizedQuickSort ρ arr low high k) ∧
    medianOfThreeQuickSortF ((high + 1 - low).toNat + 1) arr low high
      = some (medianOfThreeQuickSort arr low high) ∧
    threeWayQuickSortF ((high + 1 - low).toNat + 1) arr low high
      = some (threeWayQuickSort arr low high) ∧
    iterLoopF (stackWeight [(0, (arr.size : Int) - 1)] + 1) arr
        [(0, (arr.size : Int) - 1)]
      = some (iterativeQuickSort arr) := by
  refine ⟨quickSortF_eq _ arr low high (by omega),
    randomizedQuickSortF_eq _ ρ arr low high k (by omega),
    medianOfThreeQuickSortF_eq _ arr low high (by omega),
    threeWayQuickSortF_eq _ arr low high (by omega), ?_⟩
  rw [iterLoopF_eq _ arr _ (by omega)]
  simp only [iterativeQuickSort]

/-- C5: for `0 ≤ low < high < arr.size`, `hoarePartition` uses the original
`arr[low]` as pivot and returns `some (a2, j)` with `low ≤ j < high`,
everything in `[low, j]` at most the pivot, everything in `[j+1, high]` at
least the pivot, and the sub-range a permutation of its original
contents. -/
theorem claim_C5 (arr : Array Int) (low high : Int)
    (h0 : 0 ≤ low) (h1 : low < high) (h2 : high < (arr.size : Int)) :
    ∃ a2 j, hoarePartition arr low high = some (a2, j) ∧
      low ≤ j ∧ j < high ∧
      (∀ k, low ≤ k → k ≤ j → getE a2 k ≤ getE arr low) ∧
      (∀ k, j + 1 ≤ k → k ≤ high → getE arr low ≤ getE a2 k) ∧
      (rangeList a2 low high).Perm (rangeList arr low high) := by
  obtain ⟨a2, j, heq, hj1, hj2, hj3, hle, hge, hsub⟩ :=
    hoarePartition_spec arr low high h0 (le_of_lt h1) h2
  exact ⟨a2, j, heq, hj1, hj3 h1, hle, (fun k hk1 hk2 => hge k (by omega) hk2),
    SubPerm_rangeList hsub h0 h2⟩

/-- Witness for C5 at the concrete input `#[3, 1, 2]`, `low = 0`,
`high = 2`. -/
theorem claim_C5_witness :
    ∃ a2 j, hoarePartition (#[3, 1, 2] : Array Int) 0 2 = some (a2, j) ∧
      (0 : Int) ≤ j ∧ j < 2 ∧
      (∀ k, (0 : Int) ≤ k → k ≤ j → getE a2 k ≤ getE (#[3, 1, 2] : Array Int) 0) ∧
      (∀ k, j + 1 ≤ k → k ≤ 2 → getE (#[3, 1, 2] : Array Int) 0 ≤ getE a2 k) ∧
      (rangeList a2 0 2).Perm (rangeList (#[3, 1, 2] : Array Int) 0 2) :=
  claim_C5 #[3, 1, 2] 0 2 (by decide) (by decide) (by decide)

/-- C6 counterexample: on `#[3, 1, 2]` with `low = 0`, `high = 2`,
`hoarePartition` returns the boundary index `1`, but the value there is `1`,
not the pivot `3`: after a Hoare partition the pivot need not sit at the
returned boundary index. -/
theorem claim_C6_counterexample :
    hoarePartition (#[3, 1, 2] : Array Int) 0 2 = some (#[2, 1, 3], 1) ∧
      ¬getE (#[2, 1, 3] : Array Int) 1 = getE (#[3, 1, 2] : Array Int) 0 := by
  constructor
  · rfl
  · decide

/-- C6 amended: after `hoarePartition` returns the boundary index `j`, the
pivot (the original `arr[low]`) remains somewhere within the sub-range
`[low, high]` — but (per the counterexample) it need not be located at the
returned boundary index `j`. -/
theorem claim_C6_amended (arr : Array Int) (low high : Int)
    (h0 : 0 ≤ low) (h1 : low < high) (h2 : high < (arr.size : Int)) :
    ∃ a2 j, hoarePartition arr low high = some (a2, j) ∧ low ≤ j ∧ j < high ∧
      ∃ k, low ≤ k ∧ k ≤ high ∧ getE a2 k = getE arr low := by
  obtain ⟨a2, j, heq, hj1, hj2, hj3, hle, hge, hsub⟩ :=
    hoarePartition_spec arr low high h0 (le_of_lt h1) h2
  have hmem : getE arr low ∈ rangeList arr low high :=
    getE_mem_rangeList arr h0 (le_refl low) (by omega) (by omega)
  have hmem2 : getE arr low ∈ rangeList a2 low high :=
    (SubPerm_rangeList hsub h0 h2).mem_iff.mpr hmem
  rcases mem_rangeList h0 hmem2 with ⟨k, hk1, hk2, _, hval⟩
  exact ⟨a2, j, heq, hj1, hj3 h1, k, hk1, hk2, hval⟩

/-- Witness for the amended C6 at the concrete input `#[3, 1, 2]`, `low = 0`,
`high = 2`. -/
theorem claim_C6_witness :
    ∃ a2 j, hoarePartition (#[3, 1, 2] : Array Int) 0 2 = some (a2, j) ∧
      (0 : Int) ≤ j ∧ j < 2 ∧
      ∃ k, (0 : Int) ≤ k ∧ k ≤ 2 ∧ getE a2 k = getE (#[3, 1, 2] : Array Int) 0 :=
  claim_C6_amended #[3, 1, 2] 0 2 (by decide) (by decide) (by decide)

/-- C7: for `0 ≤ low ≤ high < arr.size`, `threeWayPartition` returns
`(lt, gt)` with three zones — `[low, lt-1]` strictly below the pivot (the
original `arr[low]`), `[lt, gt]` equal to it, `[gt+1, high]` strictly above
it — and the sub-range a permutation of its original contents; on an
all-equal range it returns `(low, high)` with the array unchanged, so
`threeWayQuickSort` recurses only on empty ranges and returns the array
unchanged. -/
theorem claim_C7 (arr : Array Int) (low high : Int)
    (h0 : 0 ≤ low) (h1 : low ≤ high) (h2 : high < (arr.size : Int)) :
    (∃ a2 lt gt, threeWayPartition arr low high = (a2, lt, gt) ∧
      low ≤ lt ∧ lt ≤ gt ∧ gt ≤ high ∧
      (∀ k, low ≤ k → k ≤ lt - 1 → getE a2 k < getE arr low) ∧
      (∀ k, lt ≤ k → k ≤ gt → getE a2 k = getE arr low) ∧
      (∀ k, gt + 1 ≤ k → k ≤ high → getE arr low < getE a2 k) ∧
      (rangeList a2 low high).Perm (rangeList arr low high)) ∧
    ((∀ k, low ≤ k → k ≤ high → getE arr k = getE arr low) →
      threeWayPartition arr low high = (arr, low, high) ∧
      threeWayQuickSort arr low high = arr) := by
  constructor
  · obtain ⟨a2, lt, gt, heq, hsub, hb1, hb2, hb3, hA, hB, hC⟩ :=
      threeWayPartition_spec arr low high h0 h1 h2
    exact ⟨a2, lt, gt, heq, hb1, hb2, hb3,
      (fun k hk1 hk2 => hA k hk1 (by omega)), hB,
      (fun k hk1 hk2 => hC k (by omega) hk2),
      SubPerm_rangeList hsub h0 h2⟩
  · intro hall
    have hpart : threeWayPartition arr low high = (arr, low, high) := by
      simp only [threeWayPartition]
      exact threeWayGo_const (high - low).toNat arr (getE arr low) low (low + 1) high
        (fun k hk1 hk2 => hall k (by omega) hk2) (by omega)
    refine ⟨hpart, ?_⟩
    rw [threeWayQuickSort_eq]
    by_cases h : low < high
    · rw [if_pos h, hpart]
      dsimp only
      rw [threeWayQuickSort_eq, if_neg (by omega : ¬high + 1 < high)]
      rw [threeWayQuickSort_eq, if_neg (by omega : ¬low < low - 1)]
    · rw [if_neg h]

/-- Witness for C7 at the concrete input `#[4, 2, 4, 5, 4]`, `low = 0`,
`high = 4`. -/
theorem claim_C7_witness :
    (∃ a2 lt gt, threeWayPartition (#[4, 2, 4, 5, 4] : Array Int) 0 4 = (a2, lt, gt) ∧
      (0 : Int) ≤ lt ∧ lt ≤ gt ∧ gt ≤ 4 ∧
      (∀ k, (0 : Int) ≤ k → k ≤ lt - 1 →
        getE a2 k < getE (#[4, 2, 4, 5, 4] : Array Int) 0) ∧
      (∀ k, lt ≤ k → k ≤ gt → getE a2 k = getE (#[4, 2, 4, 5, 4] : Array Int) 0) ∧
      (∀ k, gt + 1 ≤ k → k ≤ 4 →
        getE (#[4, 2, 4, 5, 4] : Array Int) 0 < getE a2 k) ∧
      (rangeList a2 0 4).Perm (rangeList (#[4, 2, 4, 5, 4] : Array Int) 0 4)) ∧
    ((∀ k, (0 : Int) ≤ k → k ≤ 4 →
        getE (#[4, 2, 4, 5, 4] : Array Int) k = getE (#[4, 2, 4, 5, 4] : Array Int) 0) →
      threeWayPartition (#[4, 2, 4, 5, 4] : Array Int) 0 4 = (#[4, 2, 4, 5, 4], 0, 4) ∧
      threeWayQuickSort (#[4, 2, 4, 5, 4] : Array Int) 0 4 = #[4, 2, 4, 5, 4]) :=
  claim_C7 #[4, 2, 4, 5, 4] 0 4 (by decide) (by decide) (by decide)

/-- C8: `quickSort` with explicit valid bounds rearranges exactly the
sub-range `[low, high]` into a non-descending permutation of the elements
originally there, and every position outside `[low, high]` keeps its
value. -/
theorem claim_C8 (arr : Array Int) (low high : Int)
    (h0 : 0 ≤ low) (h1 : low ≤ high) (h2 : high < (arr.size : Int)) :
    (quickSort arr low high).size = arr.size ∧
    (rangeList (quickSort arr low high) low high).Perm (rangeList arr low high) ∧
    SortedRange (quickSort arr low high) low high ∧
    ∀ k : Int, 0 ≤ k → k < (arr.size : Int) → (k < low ∨ high < k) →
      getE (quickSort arr low high) k = getE arr k := by
  obtain ⟨hs, ho⟩ := quickSort_spec (high + 1 - low).toNat arr low high (le_refl _) h0 h2
  exact ⟨hs.size_eq, SubPerm_rangeList hs h0 h2, ho, hs.frame⟩

/-- Witness for C8 at the concrete input `#[5, 2, 8, 1]` with sub-range
bounds `low = 1`, `high = 3`. -/
theorem claim_C8_witness :
    (quickSort (#[5, 2, 8, 1] : Array Int) 1 3).size = (#[5, 2, 8, 1] : Array Int).size ∧
    (rangeList (quickSort (#[5, 2, 8, 1] : Array Int) 1 3) 1 3).Perm
      (rangeList (#[5, 2, 8, 1] : Array Int) 1 3) ∧
    SortedRange (quickSort (#[5, 2, 8, 1] : Array Int) 1 3) 1 3 ∧
    (∀ k : Int, 0 ≤ k → k < ((#[5, 2, 8, 1] : Array Int).size : Int) →
      (k < 1 ∨ 3 < k) →
      getE (quickSort (#[5, 2, 8, 1] : Array Int) 1 3) k
        = getE (#[5, 2, 8, 1] : Array Int) k) :=
  claim_C8 #[5, 2, 8, 1] 1 3 (by decide) (by decide) (by decide)

/-- C9: every sort variant called with default bounds on an empty or
single-element sequence is a no-op: it returns the array unchanged. -/
theorem claim_C9 (arr : Array Int) (ρ : Nat → Nat) (k : Nat) (hsz : arr.size ≤ 1) :
    quickSortTop arr = arr ∧ randomizedQuickSortTop ρ k arr = arr ∧
      medianOfThreeQuickSortTop arr = arr ∧ iterativeQuickSort arr = arr ∧
      threeWayQuickSortTop arr = arr := by
  have hng : ¬(0 : Int) < (arr.size : Int) - 1 := by omega
  refine ⟨?_, ?_, ?_, ?_, ?_⟩
  · simp only [quickSortTop]
    rw [quickSort_eq, if_neg hng]
  · simp only [randomizedQuickSortTop]
    rw [randomizedQuickSort_eq, if_neg hng]
  · simp only [medianOfThreeQuickSortTop]
    rw [medianOfThreeQuickSort_eq, if_neg hng]
  · simp only [iterativeQuickSort]
    rw [iterLoop_cons, if_neg hng, iterLoop_nil]
  · simp only [threeWayQuickSortTop]
    rw [threeWayQuickSort_eq, if_neg hng]

/-- Witness for C9 at the concrete single-element input `#[7]` (and the
all-zero random oracle). -/
theorem claim_C9_witness :
    (#[(7 : Int)] : Array Int).size ≤ 1 ∧
      (quickSortTop #[(7 : Int)] = #[(7 : Int)] ∧
        randomizedQuickSortTop (fun _ => 0) 0 #[(7 : Int)] = #[(7 : Int)] ∧
        medianOfThreeQuickSortTop #[(7 : Int)] = #[(7 : Int)] ∧
        iterativeQuickSort #[(7 : Int)] = #[(7 : Int)] ∧
        threeWayQuickSortTop #[(7 : Int)] = #[(7 : Int)]) :=
  ⟨by decide, claim_C9 #[(7 : Int)] (fun _ => 0) 0 (by decide)⟩

/-- C10: for `0 ≤ low ≤ high < arr.size`, every read performed by
`hoarePartition` stays within `[low, high]`: in this `Option`-valued
embedding, where any read outside `[low, high]` (or outside the array)
yields `none`, the partition returns `some`. -/
theorem claim_C10 (arr : Array Int) (low high : Int)
    (h0 : 0 ≤ low) (h1 : low ≤ high) (h2 : high < (arr.size : Int)) :
    ∃ r : Array Int × Int, hoarePartition arr low high = some r := by
  obtain ⟨a2, j, heq, _⟩ := hoarePartition_spec arr low high h0 h1 h2
  exact ⟨(a2, j), heq⟩

/-- Witness for C10 at the concrete input `#[7]`, `low = high = 0`. -/
theorem claim_C10_witness :
    ∃ r : Array Int × Int, hoarePartition (#[(7 : Int)] : Array Int) 0 0 = some r :=
  claim_C10 #[(7 : Int)] 0 0 (by decide) (by decide) (by decide)
